import Mathlib

namespace Dummyls

/-!
Shallow embedding of the schema-driven configuration engine of
`dummy_ftp_server.py` (classes `ConfigSchema` and `SchemaBasedConfigManager`).

Python dynamic values are modelled by `PyVal`; Python `float` by `PyFloat`
(exact rationals plus infinities and NaN, which is all the ordering
structure the code exercises).  The persisted INI file is modelled by an
explicit `FileState`; serialization is lossless and writes always succeed
(directory creation and I/O errors are outside the model).  The
`configparser` case-folding of option names is not modelled: every key name
appearing in the repository schema is already lower-case.
-/

/-- Model of a Python float: a finite value (kept exact as a rational — the
code only parses, compares and returns these, so precision never matters
here), the two infinities, or NaN. -/
inductive PyFloat where
  | finite (q : ℚ)
  | posInf
  | negInf
  | nan
deriving DecidableEq

/-- Model of the Python values the configuration engine passes around. -/
inductive PyVal where
  | none
  | bool (b : Bool)
  | int (n : ℤ)
  | float (f : PyFloat)
  | str (s : String)
deriving DecidableEq

/-- Python `<` on floats; every comparison involving NaN is false. -/
def PyFloat.lt : PyFloat → PyFloat → Bool
  | .finite a, .finite b => decide (a < b)
  | .finite _, .posInf => true
  | .negInf, .finite _ => true
  | .negInf, .posInf => true
  | _, _ => false

/-- Python `<=` on floats; every comparison involving NaN is false. -/
def PyFloat.le : PyFloat → PyFloat → Bool
  | .finite a, .finite b => decide (a ≤ b)
  | .finite _, .posInf => true
  | .negInf, .finite _ => true
  | .negInf, .posInf => true
  | .negInf, .negInf => true
  | .posInf, .posInf => true
  | _, _ => false

/-- Numeric view of a Python value (Python `bool` is a subtype of `int`). -/
def PyVal.toFloat? : PyVal → Option PyFloat
  | .bool b => some (.finite (if b then 1 else 0))
  | .int n => some (.finite (n : ℚ))
  | .float f => some f
  | _ => Option.none

/-- Python numeric comparison `a < b`.  On non-numeric operands Python raises
`TypeError`; the code below only compares parsed numbers against schema
bounds, which are numeric in any well-formed schema, so that case is
modelled as `false`. -/
def numLt (a b : PyVal) : Bool :=
  match a.toFloat?, b.toFloat? with
  | some x, some y => x.lt y
  | _, _ => false

/-- Numeric `a <= b` (used only to state bound properties, not by the code). -/
def numLe (a b : PyVal) : Bool :=
  match a.toFloat?, b.toFloat? with
  | some x, some y => x.le y
  | _, _ => false

/-- The whitespace characters Python strips around numeric literals. -/
def isPySpace (c : Char) : Bool :=
  c == ' ' || c == '\t' || c == '\n' || c == '\r' || c == '\x0b' || c == '\x0c'

/-- Strip leading and trailing whitespace from a character list. -/
def pyStrip (l : List Char) : List Char :=
  ((l.dropWhile isPySpace).reverse.dropWhile isPySpace).reverse

/-- ASCII lower-casing of one character. -/
def lowerChar (c : Char) : Char :=
  if 'A' ≤ c ∧ c ≤ 'Z' then Char.ofNat (c.toNat + 32) else c

/-- ASCII rendering of Python `str.lower()`; every string the code
lower-cases is ASCII. -/
def pyLower (s : String) : String := String.mk (s.data.map lowerChar)

/-- Value of a list of decimal digits. -/
def digitsToNat (l : List Char) : ℕ :=
  l.foldl (fun a c => a * 10 + (c.toNat - 48)) 0

/-- Python `int(s)`: optional surrounding whitespace, optional sign, a
non-empty run of digits.  (Underscore digit grouping is not modelled.) -/
def pyParseInt (s : String) : Option ℤ :=
  let core : List Char → Option ℤ := fun ds =>
    if ds ≠ [] ∧ ds.all Char.isDigit then some (digitsToNat ds : ℤ) else Option.none
  match pyStrip s.data with
  | '+' :: ds => core ds
  | '-' :: ds => (core ds).map Neg.neg
  | ds => core ds

/-- Mantissa of a float literal: `digits`, `digits.digits`, `.digits` or
`digits.`; returns the value and the unconsumed rest. -/
def parseMantissa (l : List Char) : Option (ℚ × List Char) :=
  let p := l.span Char.isDigit
  match p.2 with
  | '.' :: r2 =>
    let q := r2.span Char.isDigit
    if p.1 = [] ∧ q.1 = [] then Option.none
    else some ((digitsToNat p.1 : ℚ) + (digitsToNat q.1 : ℚ) / (10 : ℚ) ^ q.1.length, q.2)
  | _ => if p.1 = [] then Option.none else some ((digitsToNat p.1 : ℚ), p.2)

/-- Signed decimal exponent part of a float literal. -/
def parseExpPart : List Char → Option ℤ
  | '+' :: ds => if ds ≠ [] ∧ ds.all Char.isDigit then some (digitsToNat ds : ℤ) else Option.none
  | '-' :: ds => if ds ≠ [] ∧ ds.all Char.isDigit then some (-(digitsToNat ds : ℤ)) else Option.none
  | ds => if ds ≠ [] ∧ ds.all Char.isDigit then some (digitsToNat ds : ℤ) else Option.none

/-- Finite float literal: mantissa with optional exponent. -/
def parseFiniteFloat (l : List Char) : Option ℚ :=
  match parseMantissa l with
  | Option.none => Option.none
  | some m =>
    match m.2 with
    | [] => some m.1
    | 'e' :: r => (parseExpPart r).map (fun e => m.1 * (10 : ℚ) ^ e)
    | _ => Option.none

/-- Python `float(s)`: whitespace-trimmed, case-insensitive, accepting
`inf`, `infinity`, `nan` and decimal or exponent notation. -/
def pyParseFloat (s : String) : Option PyFloat :=
  let core : Bool → List Char → Option PyFloat := fun pos ds =>
    if ds = "inf".data ∨ ds = "infinity".data then
      some (if pos then PyFloat.posInf else PyFloat.negInf)
    else if ds = "nan".data then some PyFloat.nan
    else (parseFiniteFloat ds).map (fun q => PyFloat.finite (if pos then q else -q))
  match pyStrip (pyLower s).data with
  | '+' :: ds => core true ds
  | '-' :: ds => core false ds
  | ds => core true ds

/-- A key definition from the JSON schema (a `key_def` dict).  `default`,
`min` and `max` are `Option` because the corresponding JSON fields may be
absent; `options` defaults to `[]` as in `key_def.get("options", [])`.  The
field `ktype` holds the `"type"` entry (`type` is a Lean keyword). -/
structure KeyDef where
  name : String
  ktype : String
  default : Option PyVal
  min : Option PyVal
  max : Option PyVal
  options : List String
  comment : String
deriving DecidableEq

/-- A section of the schema document. -/
structure SectionDef where
  name : String
  comment : String
  keys : List KeyDef
deriving DecidableEq

/-- The loaded schema document (the fields the engine reads). -/
structure Schema where
  filename : String
  sections : List SectionDef
deriving DecidableEq

/-- `ConfigSchema.get_sections`. -/
def get_sections (sc : Schema) : List SectionDef := sc.sections

/-- `ConfigSchema.get_section`: first section with the given name. -/
def get_section (sc : Schema) (section_name : String) : Option SectionDef :=
  (get_sections sc).find? (fun s => s.name == section_name)

/-- `ConfigSchema.get_keys_for_section`. -/
def get_keys_for_section (sc : Schema) (section_name : String) : List KeyDef :=
  match get_section sc section_name with
  | some s => s.keys
  | Option.none => []

/-- `ConfigSchema.get_key_definition`. -/
def get_key_definition (sc : Schema) (section_name key_name : String) : Option KeyDef :=
  (get_keys_for_section sc section_name).find? (fun k => k.name == key_name)

/-- Display rendering used only inside validation error messages
(approximates Python `str()`; the claims never inspect message text). -/
def pyValStr : PyVal → String
  | .none => "None"
  | .bool b => if b then "True" else "False"
  | .int n => toString n
  | .float (.finite q) => toString q
  | .float .posInf => "inf"
  | .float .negInf => "-inf"
  | .float .nan => "nan"
  | .str s => s

/-- The dict returned by `ConfigSchema.validate_value`. -/
structure ValidationResult where
  valid : Bool
  error : Option String
  value : String
deriving DecidableEq

/-- `ConfigSchema.validate_value` (source lines 153-212).  The `value` field
of the result is filled before the empty-string rewrite, so it always echoes
the original input. -/
def validate_value (value : String) (key_def : KeyDef) : ValidationResult :=
  let key_type := key_def.ktype
  let result : ValidationResult := ⟨true, Option.none, value⟩
  let v := if value = "" then "__UNDEFINED__" else value
  if v = "__UNDEFINED__" then result
  else if key_type = "boolean" then
    if ["true", "false", "yes", "no", "1", "0", "on", "off"].contains (pyLower v) then result
    else ⟨false, some (v ++ " <- ブール値である必要があります。有効な値: yes/no, true/false, 1/0, on/off"), value⟩
  else if key_type = "integer" then
    match pyParseInt v with
    | Option.none => ⟨false, some (v ++ " <- 整数値である必要があります"), value⟩
    | some n =>
      let r1 : ValidationResult :=
        match key_def.min with
        | some m =>
          if numLt (.int n) m then ⟨false, some (v ++ " <- 最小値 " ++ pyValStr m ++ " 以上である必要があります"), value⟩
          else result
        | Option.none => result
      match key_def.max with
      | some mx =>
        if numLt mx (.int n) then ⟨false, some (v ++ " <- 最大値 " ++ pyValStr mx ++ " 以下である必要があります"), value⟩
        else r1
      | Option.none => r1
  else if key_type = "float" then
    match pyParseFloat v with
    | Option.none => ⟨false, some (v ++ " <- 小数値である必要があります"), value⟩
    | some f =>
      let r1 : ValidationResult :=
        match key_def.min with
        | some m =>
          if numLt (.float f) m then ⟨false, some (v ++ " <- 最小値 " ++ pyValStr m ++ " 以上である必要があります"), value⟩
          else result
        | Option.none => result
      match key_def.max with
      | some mx =>
        if numLt mx (.float f) then ⟨false, some (v ++ " <- 最大値 " ++ pyValStr mx ++ " 以下である必要があります"), value⟩
        else r1
      | Option.none => r1
  else if key_type = "enum" then
    if v ≠ "" ∧ ¬ key_def.options.contains v then
      ⟨false, some (v ++ " <- 有効な選択肢のいずれかである必要があります: " ++ String.intercalate ", " key_def.options), value⟩
    else result
  else result

/-- The second (overriding) definition of `ConfigSchema.convert_value`
(source lines 287-325): the one bound on the class at runtime.  It has no
`__UNDEFINED__` short-circuit. -/
def convert_value (value : String) (key_def : KeyDef) : PyVal :=
  let key_type := key_def.ktype
  if key_type = "boolean" then
    .bool (["true", "yes", "1", "on"].contains (pyLower value))
  else if key_type = "integer" then
    match pyParseInt value with
    | Option.none => key_def.default.getD (.int 0)
    | some n =>
      match key_def.min with
      | some m =>
        if numLt (.int n) m then m
        else
          match key_def.max with
          | some mx => if numLt mx (.int n) then mx else .int n
          | Option.none => .int n
      | Option.none =>
        match key_def.max with
        | some mx => if numLt mx (.int n) then mx else .int n
        | Option.none => .int n
  else if key_type = "float" then
    match pyParseFloat value with
    | Option.none => key_def.default.getD (.float (.finite 0))
    | some f =>
      match key_def.min with
      | some m =>
        if numLt (.float f) m then m
        else
          match key_def.max with
          | some mx => if numLt mx (.float f) then mx else .float f
          | Option.none => .float f
      | Option.none =>
        match key_def.max with
        | some mx => if numLt mx (.float f) then mx else .float f
        | Option.none => .float f
  else if key_type = "enum" then
    if key_def.options.contains value then .str value
    else key_def.default.getD (.str "")
  else .str value

/-- The first definition of `ConfigSchema.convert_value` (source lines
214-256).  Its body after the `__UNDEFINED__` check coincides textually with
the second definition; in Python it is shadowed by the later definition and
never runs. -/
def convert_value_first (value : String) (key_def : KeyDef) : PyVal :=
  if value = "__UNDEFINED__" then .none else convert_value value key_def

/-- Options of one INI section: key name to raw string value, in file order
(a `configparser` section is an insertion-ordered dict). -/
abbrev Opts := List (String × String)

/-- A parsed INI store: section name to options, in file order. -/
abbrev Store := List (String × Opts)

/-- Membership test on a section (dict membership). -/
def optsHas (o : Opts) (k : String) : Bool := (o.find? (fun p => p.1 == k)).isSome

/-- Raw lookup on a section. -/
def optsGet (o : Opts) (k : String) : Option String :=
  (o.find? (fun p => p.1 == k)).map (fun p => p.2)

/-- Dict update: replace in place, or append. -/
def optsSet : Opts → String → String → Opts
  | [], k, v => [(k, v)]
  | p :: rest, k, v => if p.1 == k then (k, v) :: rest else p :: optsSet rest k v

/-- Dict deletion (no-op if absent). -/
def optsRemove : Opts → String → Opts
  | [], _ => []
  | p :: rest, k => if p.1 == k then rest else p :: optsRemove rest k

/-- `config.has_section`. -/
def storeHasSection (c : Store) (s : String) : Bool :=
  (c.find? (fun p => p.1 == s)).isSome

/-- Options of a section; `[]` for a missing section (callers guard with
`has_section`, mirroring the exceptions `configparser` would raise). -/
def storeOpts (c : Store) (s : String) : Opts :=
  ((c.find? (fun p => p.1 == s)).map (fun p => p.2)).getD []

/-- `config.add_section` (callers only invoke it when the section is new). -/
def storeAddSection (c : Store) (s : String) : Store := c ++ [(s, [])]

/-- `config.set` on an existing section. -/
def storeSet : Store → String → String → String → Store
  | [], _, _, _ => []
  | p :: rest, s, k, v =>
    if p.1 == s then (p.1, optsSet p.2 k v) :: rest else p :: storeSet rest s k v

/-- `config.remove_option` on an existing section. -/
def storeRemoveOpt : Store → String → String → Store
  | [], _, _ => []
  | p :: rest, s, k =>
    if p.1 == s then (p.1, optsRemove p.2 k) :: rest else p :: storeRemoveOpt rest s k

/-- `config.remove_section`. -/
def storeRemoveSection : Store → String → Store
  | [], _ => []
  | p :: rest, s => if p.1 == s then rest else p :: storeRemoveSection rest s

/-- `config.has_option`. -/
def storeHasOpt (c : Store) (s k : String) : Bool := optsHas (storeOpts c s) k

/-- `config.get`; `""` stands for the `NoOptionError` callers rule out. -/
def storeGet (c : Store) (s k : String) : String := (optsGet (storeOpts c s) k).getD ""

/-- Well-formedness every `configparser` object enjoys by construction:
section names are distinct, and key names are distinct inside a section. -/
def StoreWF (c : Store) : Prop :=
  (c.map Prod.fst).Nodup ∧ ∀ p ∈ c, (p.2.map Prod.fst).Nodup

/-- State of the INI file on disk. -/
inductive FileState where
  | missing
  | good (st : Store)
  | corrupt (raw : String)
deriving DecidableEq

/-- The sentinel-stripping loop at the top of `save_config` (lines 470-473):
delete every key whose raw value is the undefined sentinel. -/
def strip_undefined (c : Store) : Store :=
  c.map (fun p => (p.1, p.2.filter (fun q => !(q.2 == "__UNDEFINED__"))))

/-- `SchemaBasedConfigManager.save_config`: strips sentinel-valued keys,
then overwrites the file wholesale.  Directory creation and I/O errors are
outside the model, so the write always succeeds. -/
def save_config (_fs : FileState) (config : Store) : FileState × Bool :=
  (FileState.good (strip_undefined config), true)

/-- `SchemaBasedConfigManager._create_default_config`: its body is
`save_config(config); return` — the schema-driven default filling below the
`return` (lines 443-460) is unreachable. -/
def create_default_config (fs : FileState) (config : Store) : FileState :=
  (save_config fs config).1

/-- `SchemaBasedConfigManager.read_config`.  A parse failure leaves the
parser object empty in the model (the real `configparser` may retain a
partial prefix; nothing below depends on that) and, exactly like the
missing-file case, calls `_create_default_config`, which immediately
saves. -/
def read_config (fs : FileState) : Store × FileState :=
  match fs with
  | .good st => (st, fs)
  | .missing => ([], create_default_config fs [])
  | .corrupt _ => ([], create_default_config fs [])

/-- Lookup of `form_data[f"{section_name}.{key_name}"]`, `none` when the dict
does not contain that key. -/
def formLookup (form_data : Opts) (section_name key_name : String) : Option String :=
  (form_data.find? (fun q => q.1 == section_name ++ "." ++ key_name)).map (fun q => q.2)

/-- Body of the per-key loop of `update_config_from_form` (lines 391-411).
The accumulator carries the parser state and the mutable `current_keys`
list.  `List.erase` removes one occurrence and is a no-op when absent,
matching the guarded `current_keys.remove`. -/
def processKey (section_name : String) (form_data : Opts) (acc : Store × List String)
    (key_def : KeyDef) : Store × List String :=
  match formLookup form_data section_name key_def.name with
  | Option.none => acc
  | some value =>
    if value = "__UNDEFINED__" ∨ value.length = 0 then
      if storeHasSection acc.1 section_name && storeHasOpt acc.1 section_name key_def.name then
        (storeRemoveOpt acc.1 section_name key_def.name, acc.2.erase key_def.name)
      else acc
    else
      let value := if key_def.ktype = "boolean" ∧ value = "" then "no" else value
      (storeSet acc.1 section_name key_def.name value, acc.2.erase key_def.name)

/-- The pruning loop of `update_config_from_form` (lines 413-415): every key
name still listed in `current_keys` is removed from the section. -/
def pruneKeys (section_name : String) (acc : Store × List String) : Store :=
  acc.2.foldl (fun c k => storeRemoveOpt c section_name k) acc.1

/-- The empty-section cleanup of `update_config_from_form` (lines 417-419). -/
def dropEmptySection (section_name : String) (config : Store) : Store :=
  if storeHasSection config section_name ∧ storeOpts config section_name = [] then
    storeRemoveSection config section_name
  else config

/-- Body of the per-section loop of `update_config_from_form` (lines
379-419): ensure the section exists, snapshot `current_keys`, walk the
schema keys, prune every key still listed in `current_keys`, and drop the
section if it ended up empty. -/
def processSection (form_data : Opts) (config : Store) (sec : SectionDef) : Store :=
  let config := if storeHasSection config sec.name then config else storeAddSection config sec.name
  let current_keys :=
    if storeHasSection config sec.name then (storeOpts config sec.name).map Prod.fst else []
  dropEmptySection sec.name
    (pruneKeys sec.name (sec.keys.foldl (processKey sec.name form_data) (config, current_keys)))

/-- `SchemaBasedConfigManager.update_config_from_form` (lines 375-421). -/
def update_config_from_form (sc : Schema) (fs : FileState) (form_data : Opts) :
    Bool × FileState :=
  let r := read_config fs
  let config := (get_sections sc).foldl (processSection form_data) r.1
  let w := save_config r.2 config
  (w.2, w.1)

/-- The first definition of `get_config_value` (lines 423-436), shadowed at
runtime by the second: returns the raw string, or the sentinel when the key
is absent. -/
def get_config_value_first (sc : Schema) (config : Store) (sectionName key : String) : PyVal :=
  match get_key_definition sc sectionName key with
  | Option.none => .none
  | some _ =>
    if !storeHasSection config sectionName || !storeHasOpt config sectionName key then
      .str "__UNDEFINED__"
    else .str (storeGet config sectionName key)

/-- The second (overriding) definition of `get_config_value` (lines
483-496): the one bound at runtime.  The `config=None` default reads the
file first; the claims below pass the store obtained from `read_config`
explicitly. -/
def get_config_value (sc : Schema) (config : Store) (sectionName key : String) : PyVal :=
  match get_key_definition sc sectionName key with
  | Option.none => .none
  | some key_def =>
    if !storeHasSection config sectionName || !storeHasOpt config sectionName key then
      key_def.default.getD .none
    else convert_value (storeGet config sectionName key) key_def

/-- Claim C8 reads the spec as: coerce the stored raw value when present,
fall back to the schema default when the key is missing from the store,
`none` when the key is not in the schema.  This definition follows those
words (not the code) for the refinement comparison. -/
def getAsSpecified (sc : Schema) (config : Store) (sectionName key : String) : PyVal :=
  match get_key_definition sc sectionName key with
  | Option.none => .none
  | some key_def =>
    match optsGet (storeOpts config sectionName) key with
    | some raw => convert_value raw key_def
    | Option.none => key_def.default.getD .none

/-! ### Generic helper lemmas -/

theorem string_length_data (s : String) : s.length = s.data.length := by
  cases s
  rfl

theorem string_empty_iff_data {s : String} : s = "" ↔ s.data = [] :=
  ⟨fun h => by subst h; rfl, fun h => String.ext (h.trans rfl)⟩

theorem string_length_zero_iff {s : String} : s.length = 0 ↔ s = "" := by
  rw [string_length_data, List.length_eq_zero, ← string_empty_iff_data]

/-- In a list whose `f`-images are distinct, searching for the image of a
member finds exactly that member. -/
theorem find?_unique {α : Type} (f : α → String) {l : List α} {x : α}
    (hx : x ∈ l) (hn : (l.map f).Nodup) :
    l.find? (fun y => f y == f x) = some x := by
  induction l with
  | nil => cases hx
  | cons a t ih =>
    rw [List.map_cons, List.nodup_cons] at hn
    rcases List.mem_cons.mp hx with h | h
    · subst h
      simp
    · have hne : f a ≠ f x := fun hEq => hn.1 (hEq ▸ List.mem_map_of_mem f h)
      have hb : (f a == f x) = false := beq_eq_false_iff_ne.mpr hne
      simp only [List.find?, hb]
      exact ih h hn.2

/-! ### Section-options lemmas -/

theorem optsGet_isSome_iff_has (o : Opts) (k : String) :
    (optsGet o k).isSome = optsHas o k := by
  simp [optsGet, optsHas]

theorem optsHas_false_iff (o : Opts) (k : String) :
    optsHas o k = false ↔ optsGet o k = Option.none := by
  rw [← optsGet_isSome_iff_has]
  cases optsGet o k <;> simp

theorem mem_names_iff_optsHas (o : Opts) (k : String) :
    k ∈ o.map Prod.fst ↔ optsHas o k = true := by
  induction o with
  | nil => simp [optsHas]
  | cons p rest ih =>
    by_cases h : p.1 = k
    · simp [optsHas, h]
    · rw [List.map_cons, List.mem_cons]
      simp only [optsHas] at ih ⊢
      rw [List.find?_cons_of_neg _ (by simp [h])]
      simp only [← ih]
      exact ⟨fun hm => hm.resolve_left (fun hEq => h hEq.symm), Or.inr⟩

theorem optsGet_set_self (o : Opts) (k v : String) :
    optsGet (optsSet o k v) k = some v := by
  induction o with
  | nil => simp [optsSet, optsGet]
  | cons p rest ih =>
    by_cases h : p.1 = k
    · simp [optsSet, h, optsGet]
    · simp only [optsSet, beq_iff_eq, h, if_false]
      simp only [optsGet] at ih ⊢
      rw [List.find?_cons_of_neg _ (by simp [h])]
      exact ih

theorem optsGet_set_ne (o : Opts) {k k' : String} (v : String) (h : k' ≠ k) :
    optsGet (optsSet o k v) k' = optsGet o k' := by
  have hks : ¬ k = k' := fun hEq => h hEq.symm
  induction o with
  | nil => simp [optsSet, optsGet, hks]
  | cons p rest ih =>
    by_cases hp : p.1 = k
    · simp only [optsSet, beq_iff_eq, hp, if_true]
      simp only [optsGet]
      rw [List.find?_cons_of_neg _ (by simp [hks]),
        List.find?_cons_of_neg _ (by simp [hp, hks])]
    · simp only [optsSet, beq_iff_eq, hp, if_false]
      by_cases hk : p.1 = k'
      · simp only [optsGet]
        rw [List.find?_cons_of_pos _ (by simp [hk]), List.find?_cons_of_pos _ (by simp [hk])]
      · simp only [optsGet] at ih ⊢
        rw [List.find?_cons_of_neg _ (by simp [hk]), List.find?_cons_of_neg _ (by simp [hk])]
        exact ih

theorem optsGet_remove_self (o : Opts) (k : String)
    (hn : (o.map Prod.fst).Nodup) :
    optsGet (optsRemove o k) k = Option.none := by
  induction o with
  | nil => simp [optsRemove, optsGet]
  | cons p rest ih =>
    rw [List.map_cons, List.nodup_cons] at hn
    by_cases h : p.1 = k
    · simp only [optsRemove, beq_iff_eq, h, if_true]
      rw [← optsHas_false_iff, ← Bool.not_eq_true, ← mem_names_iff_optsHas]
      rw [h] at hn
      exact hn.1
    · simp only [optsRemove, beq_iff_eq, h, if_false]
      simp only [optsGet] at ih ⊢
      rw [List.find?_cons_of_neg _ (by simp [h])]
      exact ih hn.2

theorem optsGet_remove_ne (o : Opts) {k k' : String} (h : k' ≠ k) :
    optsGet (optsRemove o k) k' = optsGet o k' := by
  have hks : ¬ k = k' := fun hEq => h hEq.symm
  induction o with
  | nil => simp [optsRemove]
  | cons p rest ih =>
    by_cases hp : p.1 = k
    · simp only [optsRemove, beq_iff_eq, hp, if_true]
      simp only [optsGet]
      rw [List.find?_cons_of_neg _ (by simp [hp, hks])]
    · simp only [optsRemove, beq_iff_eq, hp, if_false]
      by_cases hk : p.1 = k'
      · simp only [optsGet]
        rw [List.find?_cons_of_pos _ (by simp [hk]), List.find?_cons_of_pos _ (by simp [hk])]
      · simp only [optsGet] at ih ⊢
        rw [List.find?_cons_of_neg _ (by simp [hk]), List.find?_cons_of_neg _ (by simp [hk])]
        exact ih

theorem optsRemove_sublist (o : Opts) (k : String) : (optsRemove o k).Sublist o := by
  induction o with
  | nil => simp [optsRemove]
  | cons p rest ih =>
    by_cases h : p.1 = k
    · simp only [optsRemove, beq_iff_eq, h, if_true]
      exact (List.sublist_cons_self p rest)
    · simp only [optsRemove, beq_iff_eq, h, if_false]
      exact ih.cons₂ p

theorem optsRemove_names_nodup {o : Opts} (k : String)
    (hn : (o.map Prod.fst).Nodup) : ((optsRemove o k).map Prod.fst).Nodup :=
  (((optsRemove_sublist o k).map Prod.fst).nodup hn)

theorem optsSet_names_nodup {o : Opts} (k v : String)
    (hn : (o.map Prod.fst).Nodup) : ((optsSet o k v).map Prod.fst).Nodup := by
  induction o with
  | nil => simp [optsSet]
  | cons p rest ih =>
    rw [List.map_cons, List.nodup_cons] at hn
    by_cases h : p.1 = k
    · simp only [optsSet, beq_iff_eq, h, if_true, List.map_cons, List.nodup_cons]
      exact ⟨h ▸ hn.1, hn.2⟩
    · simp only [optsSet, beq_iff_eq, h, if_false, List.map_cons, List.nodup_cons]
      refine ⟨fun hmem => ?_, ih hn.2⟩
      have : p.1 ∈ (optsSet rest k v).map Prod.fst := hmem
      rw [mem_names_iff_optsHas, ← optsGet_isSome_iff_has] at this
      rw [optsGet_set_ne _ _ h, optsGet_isSome_iff_has, ← mem_names_iff_optsHas] at this
      exact hn.1 this

theorem optsGet_of_mem_nodup {o : Opts} {p : String × String}
    (hn : (o.map Prod.fst).Nodup) (hp : p ∈ o) : optsGet o p.1 = some p.2 := by
  induction o with
  | nil => cases hp
  | cons q rest ih =>
    rw [List.map_cons, List.nodup_cons] at hn
    rcases List.mem_cons.mp hp with h | h
    · subst h
      simp [optsGet, List.find?_cons_of_pos]
    · have hne : q.1 ≠ p.1 := fun hEq => hn.1 (hEq ▸ List.mem_map_of_mem Prod.fst h)
      simp only [optsGet] at ih ⊢
      rw [List.find?_cons_of_neg _ (by simp [hne])]
      exact ih hn.2 h

/-- Lookup through the sentinel filter used by `save_config`. -/
theorem optsGet_filter_sentinel {o : Opts} (k : String)
    (hn : (o.map Prod.fst).Nodup) :
    optsGet (o.filter (fun q => !(q.2 == "__UNDEFINED__"))) k =
      match optsGet o k with
      | some v => if v = "__UNDEFINED__" then Option.none else some v
      | Option.none => Option.none := by
  induction o with
  | nil => simp [optsGet]
  | cons p rest ih =>
    rw [List.map_cons, List.nodup_cons] at hn
    by_cases hs : p.2 = "__UNDEFINED__"
    · rw [List.filter_cons_of_neg (by simp [hs])]
      by_cases hk : p.1 = k
      · have hrest : optsGet rest k = Option.none := by
          rw [← optsHas_false_iff, ← Bool.not_eq_true, ← mem_names_iff_optsHas]
          exact hk ▸ hn.1
        rw [ih hn.2, hrest]
        simp only [optsGet]
        rw [List.find?_cons_of_pos _ (by simp [hk])]
        simp [hs]
      · rw [ih hn.2]
        simp only [optsGet]
        rw [List.find?_cons_of_neg _ (by simp [hk])]
    · rw [List.filter_cons_of_pos (by simp [hs])]
      by_cases hk : p.1 = k
      · simp only [optsGet]
        rw [List.find?_cons_of_pos _ (by simp [hk]), List.find?_cons_of_pos _ (by simp [hk])]
        simp [hs]
      · simp only [optsGet] at ih ⊢
        rw [List.find?_cons_of_neg _ (by simp [hk]), List.find?_cons_of_neg _ (by simp [hk])]
        exact ih hn.2

/-! ### Store lemmas -/

theorem storeHasSection_iff_mem (c : Store) (s : String) :
    storeHasSection c s = true ↔ s ∈ c.map Prod.fst := by
  induction c with
  | nil => simp [storeHasSection]
  | cons p rest ih =>
    by_cases h : p.1 = s
    · simp [storeHasSection, h]
    · have hb : (p.1 == s) = false := beq_eq_false_iff_ne.mpr h
      simp only [storeHasSection, List.find?, hb] at ih ⊢
      rw [List.map_cons, List.mem_cons]
      simp only [ih]
      exact ⟨Or.inr, fun hm => hm.resolve_left (fun hEq => h hEq.symm)⟩

theorem storeOpts_not_has {c : Store} {s : String} (h : storeHasSection c s = false) :
    storeOpts c s = [] := by
  simp only [storeHasSection] at h
  cases hf : c.find? (fun p => p.1 == s) with
  | none => simp [storeOpts, hf]
  | some p => rw [hf] at h; simp at h

theorem hasSection_of_optsGet_some {c : Store} {s k v : String}
    (h : optsGet (storeOpts c s) k = some v) : storeHasSection c s = true := by
  by_contra hc
  rw [Bool.not_eq_true] at hc
  rw [storeOpts_not_has hc] at h
  simp [optsGet] at h

theorem storeOpts_addSection (c : Store) (s s' : String) :
    storeOpts (storeAddSection c s) s' = storeOpts c s' := by
  induction c with
  | nil =>
    by_cases h : s = s'
    · simp [storeAddSection, storeOpts, h]
    · simp [storeAddSection, storeOpts, h]
  | cons p rest ih =>
    by_cases h : p.1 = s'
    · simp [storeAddSection, storeOpts, h]
    · have hb : (p.1 == s') = false := beq_eq_false_iff_ne.mpr h
      simp only [storeAddSection, List.cons_append, storeOpts, List.find?, hb] at ih ⊢
      exact ih

theorem storeHasSection_addSection (c : Store) (s s' : String) :
    storeHasSection (storeAddSection c s) s' = (storeHasSection c s' || (s == s')) := by
  induction c with
  | nil =>
    by_cases h : s = s'
    · simp [storeAddSection, storeHasSection, h]
    · simp [storeAddSection, storeHasSection, h]
  | cons p rest ih =>
    by_cases h : p.1 = s'
    · simp [storeAddSection, storeHasSection, h]
    · have hb : (p.1 == s') = false := beq_eq_false_iff_ne.mpr h
      simp only [storeAddSection, List.cons_append, storeHasSection, List.find?, hb] at ih ⊢
      exact ih

theorem map_fst_storeSet (c : Store) (s k v : String) :
    (storeSet c s k v).map Prod.fst = c.map Prod.fst := by
  induction c with
  | nil => rfl
  | cons p rest ih =>
    by_cases h : p.1 = s
    · simp [storeSet, h]
    · simp [storeSet, h, ih]

theorem map_fst_storeRemoveOpt (c : Store) (s k : String) :
    (storeRemoveOpt c s k).map Prod.fst = c.map Prod.fst := by
  induction c with
  | nil => rfl
  | cons p rest ih =>
    by_cases h : p.1 = s
    · simp [storeRemoveOpt, h]
    · simp [storeRemoveOpt, h, ih]

theorem storeHasSection_congr {c₁ c₂ : Store}
    (h : c₁.map Prod.fst = c₂.map Prod.fst) (s : String) :
    storeHasSection c₁ s = storeHasSection c₂ s := by
  rw [Bool.eq_iff_iff, storeHasSection_iff_mem, storeHasSection_iff_mem, h]

theorem storeOpts_storeSet_self {c : Store} {s : String} (k v : String)
    (h : storeHasSection c s = true) :
    storeOpts (storeSet c s k v) s = optsSet (storeOpts c s) k v := by
  induction c with
  | nil => simp [storeHasSection] at h
  | cons p rest ih =>
    by_cases hp : p.1 = s
    · simp [storeSet, hp, storeOpts]
    · have hb : (p.1 == s) = false := beq_eq_false_iff_ne.mpr hp
      simp only [storeHasSection, List.find?, hb] at h
      simp only [storeSet, hb, Bool.false_eq_true, if_false, storeOpts, List.find?]
      exact ih h

theorem storeOpts_storeSet_ne {c : Store} {s s' : String} (k v : String) (h : s' ≠ s) :
    storeOpts (storeSet c s k v) s' = storeOpts c s' := by
  induction c with
  | nil => rfl
  | cons p rest ih =>
    by_cases hp : p.1 = s
    · subst hp
      have hb : (p.1 == s') = false := beq_eq_false_iff_ne.mpr (fun hEq => h hEq.symm)
      simp only [storeSet, beq_self_eq_true, if_true, storeOpts, List.find?, hb]
    · have hb2 : (p.1 == s) = false := beq_eq_false_iff_ne.mpr hp
      by_cases hq : p.1 = s'
      · have hb : (p.1 == s') = true := beq_iff_eq.mpr hq
        simp only [storeSet, hb2, Bool.false_eq_true, if_false, storeOpts, List.find?, hb]
      · have hb : (p.1 == s') = false := beq_eq_false_iff_ne.mpr hq
        simp only [storeSet, hb2, Bool.false_eq_true, if_false, storeOpts, List.find?, hb] at ih ⊢
        exact ih

theorem storeOpts_storeRemoveOpt_self {c : Store} {s : String} (k : String)
    (h : storeHasSection c s = true) :
    storeOpts (storeRemoveOpt c s k) s = optsRemove (storeOpts c s) k := by
  induction c with
  | nil => simp [storeHasSection] at h
  | cons p rest ih =>
    by_cases hp : p.1 = s
    · simp [storeRemoveOpt, hp, storeOpts]
    · have hb : (p.1 == s) = false := beq_eq_false_iff_ne.mpr hp
      simp only [storeHasSection, List.find?, hb] at h
      simp only [storeRemoveOpt, hb, Bool.false_eq_true, if_false, storeOpts, List.find?]
      exact ih h

theorem storeOpts_storeRemoveOpt_ne {c : Store} {s s' : String} (k : String) (h : s' ≠ s) :
    storeOpts (storeRemoveOpt c s k) s' = storeOpts c s' := by
  induction c with
  | nil => rfl
  | cons p rest ih =>
    by_cases hp : p.1 = s
    · subst hp
      have hb : (p.1 == s') = false := beq_eq_false_iff_ne.mpr (fun hEq => h hEq.symm)
      simp only [storeRemoveOpt, beq_self_eq_true, if_true, storeOpts, List.find?, hb]
    · have hb2 : (p.1 == s) = false := beq_eq_false_iff_ne.mpr hp
      by_cases hq : p.1 = s'
      · have hb : (p.1 == s') = true := beq_iff_eq.mpr hq
        simp only [storeRemoveOpt, hb2, Bool.false_eq_true, if_false, storeOpts, List.find?, hb]
      · have hb : (p.1 == s') = false := beq_eq_false_iff_ne.mpr hq
        simp only [storeRemoveOpt, hb2, Bool.false_eq_true, if_false, storeOpts,
          List.find?, hb] at ih ⊢
        exact ih

theorem storeOpts_removeSection_ne {c : Store} {s s' : String} (h : s' ≠ s) :
    storeOpts (storeRemoveSection c s) s' = storeOpts c s' := by
  induction c with
  | nil => rfl
  | cons p rest ih =>
    by_cases hp : p.1 = s
    · subst hp
      have hb : (p.1 == s') = false := beq_eq_false_iff_ne.mpr (fun hEq => h hEq.symm)
      simp only [storeRemoveSection, beq_self_eq_true, if_true, storeOpts, List.find?, hb]
    · have hb2 : (p.1 == s) = false := beq_eq_false_iff_ne.mpr hp
      by_cases hq : p.1 = s'
      · have hb : (p.1 == s') = true := beq_iff_eq.mpr hq
        simp only [storeRemoveSection, hb2, Bool.false_eq_true, if_false, storeOpts,
          List.find?, hb]
      · have hb : (p.1 == s') = false := beq_eq_false_iff_ne.mpr hq
        simp only [storeRemoveSection, hb2, Bool.false_eq_true, if_false, storeOpts,
          List.find?, hb] at ih ⊢
        exact ih

theorem storeHasSection_removeSection_ne {c : Store} {s s' : String} (h : s' ≠ s) :
    storeHasSection (storeRemoveSection c s) s' = storeHasSection c s' := by
  induction c with
  | nil => rfl
  | cons p rest ih =>
    by_cases hp : p.1 = s
    · subst hp
      have hb : (p.1 == s') = false := beq_eq_false_iff_ne.mpr (fun hEq => h hEq.symm)
      simp only [storeRemoveSection, beq_self_eq_true, if_true, storeHasSection,
        List.find?, hb]
    · have hb2 : (p.1 == s) = false := beq_eq_false_iff_ne.mpr hp
      by_cases hq : p.1 = s'
      · have hb : (p.1 == s') = true := beq_iff_eq.mpr hq
        simp only [storeRemoveSection, hb2, Bool.false_eq_true, if_false, storeHasSection,
          List.find?, hb]
      · have hb : (p.1 == s') = false := beq_eq_false_iff_ne.mpr hq
        simp only [storeRemoveSection, hb2, Bool.false_eq_true, if_false, storeHasSection,
          List.find?, hb] at ih ⊢
        exact ih

theorem storeHasSection_removeSection_self {c : Store} (s : String)
    (hn : (c.map Prod.fst).Nodup) :
    storeHasSection (storeRemoveSection c s) s = false := by
  induction c with
  | nil => rfl
  | cons p rest ih =>
    rw [List.map_cons, List.nodup_cons] at hn
    by_cases hp : p.1 = s
    · simp only [storeRemoveSection, hp, beq_self_eq_true, if_true]
      rw [← Bool.not_eq_true, storeHasSection_iff_mem]
      exact hp ▸ hn.1
    · have hb : (p.1 == s) = false := beq_eq_false_iff_ne.mpr hp
      simp only [storeRemoveSection, hb, Bool.false_eq_true, if_false, storeHasSection,
        List.find?, hb] at ih ⊢
      exact ih hn.2

theorem storeRemoveSection_sublist (c : Store) (s : String) :
    (storeRemoveSection c s).Sublist c := by
  induction c with
  | nil => simp [storeRemoveSection]
  | cons p rest ih =>
    by_cases h : p.1 = s
    · simp only [storeRemoveSection, h, beq_self_eq_true, if_true]
      exact List.sublist_cons_self p rest
    · have hb : (p.1 == s) = false := beq_eq_false_iff_ne.mpr h
      simp only [storeRemoveSection, hb, Bool.false_eq_true, if_false]
      exact ih.cons₂ p

theorem storeWF_sublist {c d : Store} (h : StoreWF c) (hs : d.Sublist c) : StoreWF d :=
  ⟨(hs.map Prod.fst).nodup h.1, fun p hp => h.2 p (hs.subset hp)⟩

theorem wf_storeSet (s k v : String) : ∀ (c : Store), StoreWF c → StoreWF (storeSet c s k v) := by
  intro c
  induction c with
  | nil => intro h; exact h
  | cons q rest ih =>
    intro h
    obtain ⟨h1, h2⟩ := h
    rw [List.map_cons, List.nodup_cons] at h1
    have hrest : StoreWF rest := ⟨h1.2, fun p hp => h2 p (List.mem_cons_of_mem q hp)⟩
    by_cases hq : q.1 = s
    · subst hq
      simp only [storeSet, beq_self_eq_true, if_true]
      refine ⟨?_, ?_⟩
      · rw [List.map_cons]
        exact List.nodup_cons.mpr ⟨h1.1, h1.2⟩
      · intro p hp
        rcases List.mem_cons.mp hp with hEq | hmem
        · subst hEq
          exact optsSet_names_nodup k v (h2 q (List.mem_cons_self q rest))
        · exact h2 p (List.mem_cons_of_mem q hmem)
    · have hb : (q.1 == s) = false := beq_eq_false_iff_ne.mpr hq
      simp only [storeSet, hb, Bool.false_eq_true, if_false]
      obtain ⟨ih1, ih2⟩ := ih hrest
      refine ⟨?_, ?_⟩
      · rw [List.map_cons, List.nodup_cons, map_fst_storeSet]
        exact ⟨h1.1, map_fst_storeSet rest s k v ▸ ih1⟩
      · intro p hp
        rcases List.mem_cons.mp hp with hEq | hmem
        · subst hEq
          exact h2 _ (List.mem_cons_self _ _)
        · exact ih2 p hmem

theorem wf_storeRemoveOpt (s k : String) :
    ∀ (c : Store), StoreWF c → StoreWF (storeRemoveOpt c s k) := by
  intro c
  induction c with
  | nil => intro h; exact h
  | cons q rest ih =>
    intro h
    obtain ⟨h1, h2⟩ := h
    rw [List.map_cons, List.nodup_cons] at h1
    have hrest : StoreWF rest := ⟨h1.2, fun p hp => h2 p (List.mem_cons_of_mem q hp)⟩
    by_cases hq : q.1 = s
    · subst hq
      simp only [storeRemoveOpt, beq_self_eq_true, if_true]
      refine ⟨?_, ?_⟩
      · rw [List.map_cons]
        exact List.nodup_cons.mpr ⟨h1.1, h1.2⟩
      · intro p hp
        rcases List.mem_cons.mp hp with hEq | hmem
        · subst hEq
          exact optsRemove_names_nodup k (h2 q (List.mem_cons_self q rest))
        · exact h2 p (List.mem_cons_of_mem q hmem)
    · have hb : (q.1 == s) = false := beq_eq_false_iff_ne.mpr hq
      simp only [storeRemoveOpt, hb, Bool.false_eq_true, if_false]
      obtain ⟨ih1, ih2⟩ := ih hrest
      refine ⟨?_, ?_⟩
      · rw [List.map_cons, List.nodup_cons, map_fst_storeRemoveOpt]
        exact ⟨h1.1, map_fst_storeRemoveOpt rest s k ▸ ih1⟩
      · intro p hp
        rcases List.mem_cons.mp hp with hEq | hmem
        · subst hEq
          exact h2 _ (List.mem_cons_self _ _)
        · exact ih2 p hmem

theorem wf_removeSection {c : Store} (s : String) (h : StoreWF c) :
    StoreWF (storeRemoveSection c s) :=
  storeWF_sublist h (storeRemoveSection_sublist c s)

theorem wf_addSection {c : Store} {s : String} (h : StoreWF c)
    (hns : storeHasSection c s = false) : StoreWF (storeAddSection c s) := by
  have hmem : s ∉ c.map Prod.fst := by
    rw [← storeHasSection_iff_mem, hns]
    simp
  refine ⟨?_, ?_⟩
  · rw [storeAddSection, List.map_append]
    rw [List.nodup_append]
    refine ⟨h.1, by simp, ?_⟩
    intro x hx
    simp only [List.map_cons, List.map_nil, List.mem_cons, List.not_mem_nil, or_false]
    intro hEq
    exact hmem (hEq ▸ hx)
  · intro p hp
    rcases List.mem_append.mp hp with hmem2 | hmem2
    · exact h.2 p hmem2
    · rcases List.mem_singleton.mp hmem2 with hEq
      subst hEq
      simp

theorem opts_nodup_of_wf {c : Store} (h : StoreWF c) (s : String) :
    ((storeOpts c s).map Prod.fst).Nodup := by
  unfold storeOpts
  cases hf : c.find? (fun p => p.1 == s) with
  | none => simp
  | some p => simpa using h.2 p (List.mem_of_find?_eq_some hf)

theorem map_fst_strip (c : Store) : (strip_undefined c).map Prod.fst = c.map Prod.fst := by
  induction c with
  | nil => rfl
  | cons p rest ih =>
    simp only [strip_undefined, List.map_cons] at ih ⊢
    rw [ih]

theorem storeOpts_strip (c : Store) (s : String) :
    storeOpts (strip_undefined c) s =
      (storeOpts c s).filter (fun q => !(q.2 == "__UNDEFINED__")) := by
  induction c with
  | nil => simp [strip_undefined, storeOpts]
  | cons p rest ih =>
    by_cases h : p.1 = s
    · simp [strip_undefined, storeOpts, h]
    · have hb : (p.1 == s) = false := beq_eq_false_iff_ne.mpr h
      simp only [strip_undefined, List.map_cons, storeOpts, List.find?, hb] at ih ⊢
      exact ih

/-! ### Reconciliation-loop characterization -/

/-- Outcome for a schema key mentioned by the form: cleared when the
sentinel or the empty string was submitted, otherwise set to the submitted
value. -/
def touchedResult (form_data : Opts) (s k : String) : Option String :=
  match formLookup form_data s k with
  | some v => if v = "__UNDEFINED__" ∨ v.length = 0 then Option.none else some v
  | Option.none => Option.none

/-- Raw value of key `k` of section `sec` after one reconciliation pass:
present iff the schema defines it and the form submitted a real value. -/
def expectedOpt (form_data : Opts) (sec : SectionDef) (k : String) : Option String :=
  match sec.keys.find? (fun kd => kd.name == k) with
  | some _ => touchedResult form_data sec.name k
  | Option.none => Option.none

theorem processKey_eq_of_none {S : String} {form : Opts} {c : Store} {ck : List String}
    {kd : KeyDef} (hf : formLookup form S kd.name = Option.none) :
    processKey S form (c, ck) kd = (c, ck) := by
  simp [processKey, hf]

theorem processKey_eq_of_clear {S : String} {form : Opts} {c : Store} {ck : List String}
    {kd : KeyDef} {v : String} (hf : formLookup form S kd.name = some v)
    (hc : v = "__UNDEFINED__" ∨ v.length = 0)
    (hhas : (storeHasSection c S && storeHasOpt c S kd.name) = true) :
    processKey S form (c, ck) kd = (storeRemoveOpt c S kd.name, ck.erase kd.name) := by
  simp [processKey, hf, hc, hhas]

theorem processKey_eq_of_clear_absent {S : String} {form : Opts} {c : Store}
    {ck : List String} {kd : KeyDef} {v : String} (hf : formLookup form S kd.name = some v)
    (hc : v = "__UNDEFINED__" ∨ v.length = 0)
    (hhas : (storeHasSection c S && storeHasOpt c S kd.name) = false) :
    processKey S form (c, ck) kd = (c, ck) := by
  simp [processKey, hf, hc, hhas]

theorem processKey_eq_of_set {S : String} {form : Opts} {c : Store} {ck : List String}
    {kd : KeyDef} {v : String} (hf : formLookup form S kd.name = some v)
    (hc : ¬ (v = "__UNDEFINED__" ∨ v.length = 0)) :
    processKey S form (c, ck) kd = (storeSet c S kd.name v, ck.erase kd.name) := by
  have hne : v ≠ "" := by
    intro hEq
    exact hc (Or.inr (by rw [hEq]; rfl))
  have hval : (if kd.ktype = "boolean" ∧ v = "" then "no" else v) = v := by
    rw [if_neg]
    rintro ⟨_, h2⟩
    exact hne h2
  simp [processKey, hf, hc, hval]

theorem processKey_fst_self {S : String} {form : Opts} {c : Store} {ck : List String}
    (kd : KeyDef) (hs : storeHasSection c S = true) (hwf : StoreWF c) :
    optsGet (storeOpts ((processKey S form (c, ck) kd).1) S) kd.name =
      match formLookup form S kd.name with
      | some _ => touchedResult form S kd.name
      | Option.none => optsGet (storeOpts c S) kd.name := by
  cases hf : formLookup form S kd.name with
  | none => rw [processKey_eq_of_none hf]
  | some v =>
    by_cases hc : v = "__UNDEFINED__" ∨ v.length = 0
    · have hres : touchedResult form S kd.name = Option.none := by
        simp [touchedResult, hf, hc]
      cases hhas : (storeHasSection c S && storeHasOpt c S kd.name) with
      | true =>
        rw [processKey_eq_of_clear hf hc hhas]
        simp only [hres]
        rw [storeOpts_storeRemoveOpt_self _ hs, optsGet_remove_self _ _ (opts_nodup_of_wf hwf S)]
      | false =>
        rw [processKey_eq_of_clear_absent hf hc hhas]
        simp only [hres]
        rw [hs, Bool.true_and] at hhas
        rw [← optsHas_false_iff]
        exact hhas
    · rw [processKey_eq_of_set hf hc]
      have hres : touchedResult form S kd.name = some v := by
        simp [touchedResult, hf, hc]
      simp only [hres]
      rw [storeOpts_storeSet_self _ _ hs, optsGet_set_self]

theorem processKey_fst_ne {S : String} {form : Opts} {c : Store} {ck : List String}
    (kd : KeyDef) {k : String} (hk : k ≠ kd.name) (hs : storeHasSection c S = true) :
    optsGet (storeOpts ((processKey S form (c, ck) kd).1) S) k =
      optsGet (storeOpts c S) k := by
  cases hf : formLookup form S kd.name with
  | none => rw [processKey_eq_of_none hf]
  | some v =>
    by_cases hc : v = "__UNDEFINED__" ∨ v.length = 0
    · cases hhas : (storeHasSection c S && storeHasOpt c S kd.name) with
      | true =>
        rw [processKey_eq_of_clear hf hc hhas]
        rw [storeOpts_storeRemoveOpt_self _ hs, optsGet_remove_ne _ hk]
      | false =>
        rw [processKey_eq_of_clear_absent hf hc hhas]
    · rw [processKey_eq_of_set hf hc]
      rw [storeOpts_storeSet_self _ _ hs, optsGet_set_ne _ _ hk]

theorem processKey_map_fst {S : String} {form : Opts} {c : Store} {ck : List String}
    (kd : KeyDef) :
    ((processKey S form (c, ck) kd).1).map Prod.fst = c.map Prod.fst := by
  cases hf : formLookup form S kd.name with
  | none => rw [processKey_eq_of_none hf]
  | some v =>
    by_cases hc : v = "__UNDEFINED__" ∨ v.length = 0
    · cases hhas : (storeHasSection c S && storeHasOpt c S kd.name) with
      | true =>
        rw [processKey_eq_of_clear hf hc hhas]
        exact map_fst_storeRemoveOpt c S kd.name
      | false =>
        rw [processKey_eq_of_clear_absent hf hc hhas]
    · rw [processKey_eq_of_set hf hc]
      exact map_fst_storeSet c S kd.name v

theorem processKey_wf {S : String} {form : Opts} {c : Store} {ck : List String}
    (kd : KeyDef) (hwf : StoreWF c) : StoreWF ((processKey S form (c, ck) kd).1) := by
  cases hf : formLookup form S kd.name with
  | none => rw [processKey_eq_of_none hf]; exact hwf
  | some v =>
    by_cases hc : v = "__UNDEFINED__" ∨ v.length = 0
    · cases hhas : (storeHasSection c S && storeHasOpt c S kd.name) with
      | true =>
        rw [processKey_eq_of_clear hf hc hhas]
        exact wf_storeRemoveOpt S kd.name c hwf
      | false =>
        rw [processKey_eq_of_clear_absent hf hc hhas]
        exact hwf
    · rw [processKey_eq_of_set hf hc]
      exact wf_storeSet S kd.name v c hwf

theorem processKey_other {S : String} {form : Opts} {c : Store} {ck : List String}
    (kd : KeyDef) {s' : String} (h : s' ≠ S) :
    storeOpts ((processKey S form (c, ck) kd).1) s' = storeOpts c s' := by
  cases hf : formLookup form S kd.name with
  | none => rw [processKey_eq_of_none hf]
  | some v =>
    by_cases hc : v = "__UNDEFINED__" ∨ v.length = 0
    · cases hhas : (storeHasSection c S && storeHasOpt c S kd.name) with
      | true =>
        rw [processKey_eq_of_clear hf hc hhas]
        exact storeOpts_storeRemoveOpt_ne _ h
      | false =>
        rw [processKey_eq_of_clear_absent hf hc hhas]
    · rw [processKey_eq_of_set hf hc]
      exact storeOpts_storeSet_ne _ _ h

theorem processKey_snd_nodup {S : String} {form : Opts} {c : Store} {ck : List String}
    (kd : KeyDef) (hn : ck.Nodup) : ((processKey S form (c, ck) kd).2).Nodup := by
  cases hf : formLookup form S kd.name with
  | none => rw [processKey_eq_of_none hf]; exact hn
  | some v =>
    by_cases hc : v = "__UNDEFINED__" ∨ v.length = 0
    · cases hhas : (storeHasSection c S && storeHasOpt c S kd.name) with
      | true =>
        rw [processKey_eq_of_clear hf hc hhas]
        exact hn.erase kd.name
      | false =>
        rw [processKey_eq_of_clear_absent hf hc hhas]
        exact hn
    · rw [processKey_eq_of_set hf hc]
      exact hn.erase kd.name

theorem processKey_snd_mem {S : String} {form : Opts} {c : Store} {ck : List String}
    (kd : KeyDef) (hn : ck.Nodup) (hs : storeHasSection c S = true)
    (hsub : ∀ x ∈ ck, optsHas (storeOpts c S) x = true) (k : String) :
    k ∈ (processKey S form (c, ck) kd).2 ↔
      (k ∈ ck ∧ (k ≠ kd.name ∨ formLookup form S kd.name = Option.none)) := by
  cases hf : formLookup form S kd.name with
  | none =>
    rw [processKey_eq_of_none hf]
    simp
  | some v =>
    have herase : ∀ k, k ∈ ck.erase kd.name ↔ (k ∈ ck ∧ (k ≠ kd.name ∨ False)) := by
      intro k
      rw [hn.mem_erase_iff]
      simp [and_comm]
    by_cases hc : v = "__UNDEFINED__" ∨ v.length = 0
    · cases hhas : (storeHasSection c S && storeHasOpt c S kd.name) with
      | true =>
        rw [processKey_eq_of_clear hf hc hhas]
        simpa using herase k
      | false =>
        rw [processKey_eq_of_clear_absent hf hc hhas]
        rw [hs, Bool.true_and] at hhas
        constructor
        · intro hm
          refine ⟨hm, ?_⟩
          by_cases hk : k = kd.name
          · subst hk
            simp only [storeHasOpt] at hhas
            rw [hsub _ hm] at hhas
            cases hhas
          · exact Or.inl hk
        · intro hm
          exact hm.1
    · rw [processKey_eq_of_set hf hc]
      simpa using herase k

theorem processKey_snd_sub {S : String} {form : Opts} {c : Store} {ck : List String}
    (kd : KeyDef) (hn : ck.Nodup) (hs : storeHasSection c S = true)
    (hsub : ∀ x ∈ ck, optsHas (storeOpts c S) x = true) :
    ∀ x ∈ (processKey S form (c, ck) kd).2,
      optsHas (storeOpts ((processKey S form (c, ck) kd).1) S) x = true := by
  intro x hx
  have hmem := (processKey_snd_mem kd hn hs hsub x).mp hx
  by_cases hk : x = kd.name
  · subst hk
    rcases hmem.2 with hne | hnone
    · exact absurd rfl hne
    · rw [processKey_eq_of_none hnone] at hx ⊢
      exact hsub _ hx
  · rw [← optsGet_isSome_iff_has, processKey_fst_ne kd hk hs, optsGet_isSome_iff_has]
    exact hsub x hmem.1

theorem processKey_hasSection {S : String} {form : Opts} {c : Store} {ck : List String}
    (kd : KeyDef) :
    storeHasSection ((processKey S form (c, ck) kd).1) S = storeHasSection c S :=
  storeHasSection_congr (processKey_map_fst kd) S

/-- Combined invariant of the per-key loop: lookup characterization for the
processed section, the `current_keys` bookkeeping, and structural
preservation. -/
theorem foldKeys_spec (S : String) (form : Opts) :
    ∀ (L : List KeyDef) (c : Store) (ck : List String),
      (L.map KeyDef.name).Nodup →
      storeHasSection c S = true →
      StoreWF c →
      ck.Nodup →
      (∀ x ∈ ck, optsHas (storeOpts c S) x = true) →
      (∀ k, optsGet (storeOpts (L.foldl (processKey S form) (c, ck)).1 S) k =
        (if (L.find? (fun kd => kd.name == k)).isSome ∧ (formLookup form S k).isSome then
          touchedResult form S k
        else optsGet (storeOpts c S) k))
      ∧ (∀ k, k ∈ (L.foldl (processKey S form) (c, ck)).2 ↔
          (k ∈ ck ∧ (L.find? (fun kd => kd.name == k) = Option.none ∨
            formLookup form S k = Option.none)))
      ∧ storeHasSection (L.foldl (processKey S form) (c, ck)).1 S = true
      ∧ StoreWF (L.foldl (processKey S form) (c, ck)).1
      ∧ ((L.foldl (processKey S form) (c, ck)).2).Nodup
      ∧ (∀ x ∈ (L.foldl (processKey S form) (c, ck)).2,
          optsHas (storeOpts (L.foldl (processKey S form) (c, ck)).1 S) x = true)
      ∧ ((L.foldl (processKey S form) (c, ck)).1).map Prod.fst = c.map Prod.fst
      ∧ (∀ s', s' ≠ S →
          storeOpts (L.foldl (processKey S form) (c, ck)).1 s' = storeOpts c s') := by
  intro L
  induction L with
  | nil =>
    intro c ck _ hs hwf hn hsub
    refine ⟨?_, ?_, hs, hwf, hn, hsub, rfl, fun _ _ => rfl⟩
    · intro k
      simp [List.find?]
    · intro k
      simp [List.find?]
  | cons kd L' ih =>
    intro c ck hL hs hwf hn hsub
    rw [List.map_cons, List.nodup_cons] at hL
    have hLfind : L'.find? (fun kd' => kd'.name == kd.name) = Option.none := by
      rw [List.find?_eq_none]
      intro x hx
      simp only [beq_iff_eq]
      intro hEq
      exact hL.1 (hEq ▸ List.mem_map_of_mem KeyDef.name hx)
    have hstep_hs : storeHasSection (processKey S form (c, ck) kd).1 S = true := by
      rw [processKey_hasSection]
      exact hs
    have hstep_wf : StoreWF (processKey S form (c, ck) kd).1 := processKey_wf kd hwf
    have hstep_nd : ((processKey S form (c, ck) kd).2).Nodup := processKey_snd_nodup kd hn
    have hstep_sub := @processKey_snd_sub S form c ck kd hn hs hsub
    have hIH := ih (processKey S form (c, ck) kd).1 (processKey S form (c, ck) kd).2
      hL.2 hstep_hs hstep_wf hstep_nd hstep_sub
    simp only [Prod.mk.eta] at hIH
    obtain ⟨ih1, ih2, ih3, ih4, ih5, ih6, ih7, ih8⟩ := hIH
    rw [List.foldl_cons]
    refine ⟨?_, ?_, ih3, ih4, ih5, ih6,
      ih7.trans (processKey_map_fst kd),
      fun s' hne => (ih8 s' hne).trans (processKey_other kd hne)⟩
    · intro k
      by_cases hk : kd.name = k
      · subst hk
        have hfind : (kd :: L').find? (fun kd' => kd'.name == kd.name) = some kd :=
          List.find?_cons_of_pos _ (by simp)
        rw [ih1, hLfind, processKey_fst_self kd hs hwf, hfind]
        cases hform : formLookup form S kd.name with
        | none => simp
        | some v => simp
      · have hfind : (kd :: L').find? (fun kd' => kd'.name == k) =
            L'.find? (fun kd' => kd'.name == k) :=
          List.find?_cons_of_neg _ (by simp [hk])
        rw [ih1, hfind, processKey_fst_ne kd (Ne.symm hk) hs]
    · intro k
      rw [ih2, processKey_snd_mem kd hn hs hsub]
      by_cases hk : kd.name = k
      · subst hk
        have hfind : (kd :: L').find? (fun kd' => kd'.name == kd.name) = some kd :=
          List.find?_cons_of_pos _ (by simp)
        rw [hLfind, hfind]
        simp [and_assoc]
      · have hfind : (kd :: L').find? (fun kd' => kd'.name == k) =
            L'.find? (fun kd' => kd'.name == k) :=
          List.find?_cons_of_neg _ (by simp [hk])
        rw [hfind]
        simp [Ne.symm hk, and_assoc]

/-- Characterization of the pruning loop: exactly the listed keys vanish. -/
theorem foldPrune_spec (S : String) :
    ∀ (ks : List String) (c : Store),
      storeHasSection c S = true → StoreWF c →
      (∀ k, optsGet (storeOpts (ks.foldl (fun c k => storeRemoveOpt c S k) c) S) k =
        if k ∈ ks then Option.none else optsGet (storeOpts c S) k)
      ∧ StoreWF (ks.foldl (fun c k => storeRemoveOpt c S k) c)
      ∧ storeHasSection (ks.foldl (fun c k => storeRemoveOpt c S k) c) S = true
      ∧ (ks.foldl (fun c k => storeRemoveOpt c S k) c).map Prod.fst = c.map Prod.fst
      ∧ (∀ s', s' ≠ S →
          storeOpts (ks.foldl (fun c k => storeRemoveOpt c S k) c) s' = storeOpts c s') := by
  intro ks
  induction ks with
  | nil =>
    intro c hs hwf
    exact ⟨fun k => by simp, hwf, hs, rfl, fun _ _ => rfl⟩
  | cons k0 rest ih =>
    intro c hs hwf
    have hs' : storeHasSection (storeRemoveOpt c S k0) S = true := by
      rw [storeHasSection_congr (map_fst_storeRemoveOpt c S k0)]
      exact hs
    have hwf' := wf_storeRemoveOpt S k0 c hwf
    obtain ⟨ih1, ih2, ih3, ih4, ih5⟩ := ih (storeRemoveOpt c S k0) hs' hwf'
    rw [List.foldl_cons]
    refine ⟨?_, ih2, ih3, ih4.trans (map_fst_storeRemoveOpt c S k0),
      fun s' hne => (ih5 s' hne).trans (storeOpts_storeRemoveOpt_ne k0 hne)⟩
    intro k
    rw [ih1]
    by_cases hm : k ∈ k0 :: rest
    · rw [if_pos hm]
      rcases List.mem_cons.mp hm with hEq | hmem
      · subst hEq
        by_cases hr : k ∈ rest
        · rw [if_pos hr]
        · rw [if_neg hr, storeOpts_storeRemoveOpt_self _ hs,
            optsGet_remove_self _ _ (opts_nodup_of_wf hwf S)]
      · rw [if_pos hmem]
    · have h1 : k ∉ rest := fun hr => hm (List.mem_cons_of_mem _ hr)
      have h2 : k ≠ k0 := fun hEq => hm (hEq ▸ List.mem_cons_self _ _)
      rw [if_neg hm, if_neg h1, storeOpts_storeRemoveOpt_self _ hs, optsGet_remove_ne _ h2]

theorem dropEmpty_opts_self (S : String) {c : Store} (hwf : StoreWF c) :
    storeOpts (dropEmptySection S c) S = storeOpts c S := by
  unfold dropEmptySection
  by_cases h : storeHasSection c S = true ∧ storeOpts c S = []
  · rw [if_pos h, storeOpts_not_has (storeHasSection_removeSection_self S hwf.1), h.2]
  · rw [if_neg h]

theorem dropEmpty_wf (S : String) {c : Store} (hwf : StoreWF c) :
    StoreWF (dropEmptySection S c) := by
  unfold dropEmptySection
  by_cases h : storeHasSection c S = true ∧ storeOpts c S = []
  · rw [if_pos h]
    exact wf_removeSection S hwf
  · rw [if_neg h]
    exact hwf

theorem dropEmpty_nonempty (S : String) {c : Store} (hwf : StoreWF c) :
    storeHasSection (dropEmptySection S c) S = true →
      storeOpts (dropEmptySection S c) S ≠ [] := by
  unfold dropEmptySection
  by_cases h : storeHasSection c S = true ∧ storeOpts c S = []
  · rw [if_pos h]
    intro hhas
    rw [storeHasSection_removeSection_self S hwf.1] at hhas
    cases hhas
  · rw [if_neg h]
    intro hhas
    push_neg at h
    exact h hhas

theorem dropEmpty_other (S : String) (c : Store) {s' : String} (h : s' ≠ S) :
    storeOpts (dropEmptySection S c) s' = storeOpts c s'
    ∧ storeHasSection (dropEmptySection S c) s' = storeHasSection c s' := by
  unfold dropEmptySection
  by_cases hc : storeHasSection c S = true ∧ storeOpts c S = []
  · rw [if_pos hc]
    exact ⟨storeOpts_removeSection_ne h, storeHasSection_removeSection_ne h⟩
  · rw [if_neg hc]
    exact ⟨rfl, rfl⟩

theorem foldKeys_other (S : String) (form : Opts) {s' : String} (h : s' ≠ S) :
    ∀ (L : List KeyDef) (acc : Store × List String),
      storeOpts (L.foldl (processKey S form) acc).1 s' = storeOpts acc.1 s' := by
  intro L
  induction L with
  | nil => intro acc; rfl
  | cons kd L' ih =>
    intro acc
    rw [List.foldl_cons, ih (processKey S form acc kd)]
    exact processKey_other kd h

theorem foldKeys_map_fst (S : String) (form : Opts) :
    ∀ (L : List KeyDef) (acc : Store × List String),
      ((L.foldl (processKey S form) acc).1).map Prod.fst = (acc.1).map Prod.fst := by
  intro L
  induction L with
  | nil => intro acc; rfl
  | cons kd L' ih =>
    intro acc
    rw [List.foldl_cons, ih (processKey S form acc kd)]
    exact processKey_map_fst kd

theorem foldRemove_other (S : String) {s' : String} (h : s' ≠ S) :
    ∀ (ks : List String) (c : Store),
      storeOpts (ks.foldl (fun c k => storeRemoveOpt c S k) c) s' = storeOpts c s' := by
  intro ks
  induction ks with
  | nil => intro c; rfl
  | cons k0 rest ih =>
    intro c
    rw [List.foldl_cons, ih (storeRemoveOpt c S k0)]
    exact storeOpts_storeRemoveOpt_ne k0 h

theorem foldRemove_map_fst (S : String) :
    ∀ (ks : List String) (c : Store),
      (ks.foldl (fun c k => storeRemoveOpt c S k) c).map Prod.fst = c.map Prod.fst := by
  intro ks
  induction ks with
  | nil => intro c; rfl
  | cons k0 rest ih =>
    intro c
    rw [List.foldl_cons, ih (storeRemoveOpt c S k0)]
    exact map_fst_storeRemoveOpt c S k0

theorem processSection_other (form : Opts) (c : Store) (sec : SectionDef)
    {s' : String} (h : s' ≠ sec.name) :
    storeOpts (processSection form c sec) s' = storeOpts c s'
    ∧ storeHasSection (processSection form c sec) s' = storeHasSection c s' := by
  simp only [processSection]
  set c0 := if storeHasSection c sec.name then c else storeAddSection c sec.name with hc0
  set ck0 :=
    if storeHasSection c0 sec.name then (storeOpts c0 sec.name).map Prod.fst else [] with hck0
  have h0opts : storeOpts c0 s' = storeOpts c s' := by
    rw [hc0]
    by_cases hh : storeHasSection c sec.name
    · rw [if_pos hh]
    · rw [if_neg hh, storeOpts_addSection]
  have h0has : storeHasSection c0 s' = storeHasSection c s' := by
    rw [hc0]
    by_cases hh : storeHasSection c sec.name
    · rw [if_pos hh]
    · rw [if_neg hh, storeHasSection_addSection]
      have hb : (sec.name == s') = false := beq_eq_false_iff_ne.mpr (fun hEq => h hEq.symm)
      rw [hb, Bool.or_false]
  constructor
  · rw [(dropEmpty_other sec.name _ h).1]
    simp only [pruneKeys]
    rw [foldRemove_other sec.name h, foldKeys_other sec.name form h]
    exact h0opts
  · rw [(dropEmpty_other sec.name _ h).2]
    have hnames :
        (pruneKeys sec.name (sec.keys.foldl (processKey sec.name form) (c0, ck0))).map Prod.fst
          = c0.map Prod.fst := by
      simp only [pruneKeys]
      rw [foldRemove_map_fst, foldKeys_map_fst]
    rw [storeHasSection_congr hnames, h0has]

/-- Full characterization of one `processSection` pass on its own section:
the resulting options are exactly `expectedOpt`, well-formedness is kept,
and the section never survives empty. -/
theorem processSection_spec (form : Opts) (c : Store) (sec : SectionDef)
    (hwf : StoreWF c) (hkeys : (sec.keys.map KeyDef.name).Nodup) :
    (∀ k, optsGet (storeOpts (processSection form c sec) sec.name) k =
      expectedOpt form sec k)
    ∧ StoreWF (processSection form c sec)
    ∧ (storeHasSection (processSection form c sec) sec.name = true →
        storeOpts (processSection form c sec) sec.name ≠ []) := by
  simp only [processSection]
  set c0 := if storeHasSection c sec.name then c else storeAddSection c sec.name with hc0
  have hs0 : storeHasSection c0 sec.name = true := by
    rw [hc0]
    by_cases hh : storeHasSection c sec.name
    · rw [if_pos hh]
      exact hh
    · rw [if_neg hh, storeHasSection_addSection]
      simp
  have hwf0 : StoreWF c0 := by
    rw [hc0]
    by_cases hh : storeHasSection c sec.name
    · rw [if_pos hh]
      exact hwf
    · have hfalse : storeHasSection c sec.name = false := by
        cases hb : storeHasSection c sec.name
        · rfl
        · exact absurd hb hh
      rw [if_neg hh]
      exact wf_addSection hwf hfalse
  rw [if_pos hs0]
  obtain ⟨f1, f2, f3, f4, f5, f6, f7, f8⟩ :=
    foldKeys_spec sec.name form sec.keys c0 ((storeOpts c0 sec.name).map Prod.fst) hkeys hs0 hwf0
      (opts_nodup_of_wf hwf0 sec.name)
      (fun x hx => (mem_names_iff_optsHas _ x).mp hx)
  set acc := sec.keys.foldl (processKey sec.name form) (c0, (storeOpts c0 sec.name).map Prod.fst)
    with hacc
  obtain ⟨p1, p2, p3, p4, p5⟩ := foldPrune_spec sec.name acc.2 acc.1 f3 f4
  simp only [pruneKeys]
  refine ⟨?_, dropEmpty_wf _ p2, dropEmpty_nonempty _ p2⟩
  intro k
  rw [dropEmpty_opts_self _ p2, p1 k]
  by_cases hmem : k ∈ acc.2
  · rw [if_pos hmem]
    obtain ⟨hck, huntouched⟩ := (f2 k).mp hmem
    unfold expectedOpt touchedResult
    rcases huntouched with hfind | hform
    · rw [hfind]
    · cases hfindk : sec.keys.find? (fun kd => kd.name == k) with
      | none => rfl
      | some kd => rw [hform]
  · rw [if_neg hmem, f1 k]
    by_cases htouch :
        (sec.keys.find? (fun kd => kd.name == k)).isSome = true
        ∧ (formLookup form sec.name k).isSome = true
    · rw [if_pos htouch]
      unfold expectedOpt
      cases hfindk : sec.keys.find? (fun kd => kd.name == k) with
      | none =>
        rw [hfindk] at htouch
        simp at htouch
      | some kd => rfl
    · rw [if_neg htouch]
      have huntouched : sec.keys.find? (fun kd => kd.name == k) = Option.none
          ∨ formLookup form sec.name k = Option.none := by
        by_cases hA : (sec.keys.find? (fun kd => kd.name == k)).isSome = true
        · by_cases hB : (formLookup form sec.name k).isSome = true
          · exact absurd ⟨hA, hB⟩ htouch
          · exact Or.inr (Option.not_isSome_iff_eq_none.mp hB)
        · exact Or.inl (Option.not_isSome_iff_eq_none.mp hA)
      have hnotck : k ∉ (storeOpts c0 sec.name).map Prod.fst :=
        fun hck => hmem ((f2 k).mpr ⟨hck, huntouched⟩)
      have hnone : optsGet (storeOpts c0 sec.name) k = Option.none := by
        rw [← optsHas_false_iff]
        cases hb : optsHas (storeOpts c0 sec.name) k
        · rfl
        · exact absurd ((mem_names_iff_optsHas _ k).mpr hb) hnotck
      rw [hnone]
      unfold expectedOpt touchedResult
      rcases huntouched with hfind | hform
      · rw [hfind]
      · cases hfindk : sec.keys.find? (fun kd => kd.name == k) with
        | none => rfl
        | some kd => rw [hform]

/-- Sections whose names never appear in the processed list are untouched. -/
theorem foldSections_preserve (form : Opts) (S : String) :
    ∀ (secs : List SectionDef) (c : Store),
      (∀ s ∈ secs, s.name ≠ S) →
      storeOpts (secs.foldl (processSection form) c) S = storeOpts c S
      ∧ storeHasSection (secs.foldl (processSection form) c) S = storeHasSection c S := by
  intro secs
  induction secs with
  | nil => intro c _; exact ⟨rfl, rfl⟩
  | cons sec0 rest ih =>
    intro c hne
    rw [List.foldl_cons]
    obtain ⟨ih1, ih2⟩ :=
      ih (processSection form c sec0) (fun s hs => hne s (List.mem_cons_of_mem _ hs))
    have hother := processSection_other form c sec0
      (Ne.symm (hne sec0 (List.mem_cons_self _ _)))
    exact ⟨ih1.trans hother.1, ih2.trans hother.2⟩

/-- Characterization of the whole per-section fold of
`update_config_from_form`, for every schema section. -/
theorem foldSections_spec (form : Opts) :
    ∀ (secs : List SectionDef) (c : Store),
      (secs.map SectionDef.name).Nodup →
      (∀ s ∈ secs, (s.keys.map KeyDef.name).Nodup) →
      StoreWF c →
      StoreWF (secs.foldl (processSection form) c)
      ∧ (∀ sec ∈ secs,
          (∀ k, optsGet (storeOpts (secs.foldl (processSection form) c) sec.name) k =
            expectedOpt form sec k)
          ∧ (storeHasSection (secs.foldl (processSection form) c) sec.name = true →
              storeOpts (secs.foldl (processSection form) c) sec.name ≠ [])) := by
  intro secs
  induction secs with
  | nil =>
    intro c _ _ hwf
    exact ⟨hwf, fun sec h => absurd h (List.not_mem_nil sec)⟩
  | cons sec0 rest ih =>
    intro c hnames hkeys hwf
    rw [List.map_cons, List.nodup_cons] at hnames
    obtain ⟨s1, s2, s3⟩ := processSection_spec form c sec0 hwf
      (hkeys sec0 (List.mem_cons_self _ _))
    obtain ⟨ihwf, ihsec⟩ := ih (processSection form c sec0) hnames.2
      (fun s hs => hkeys s (List.mem_cons_of_mem _ hs)) s2
    rw [List.foldl_cons]
    refine ⟨ihwf, ?_⟩
    intro sec hsec
    rcases List.mem_cons.mp hsec with hEq | hmem
    · subst hEq
      have hrest : ∀ s ∈ rest, s.name ≠ sec.name := by
        intro s hs hEq
        exact hnames.1 (hEq ▸ List.mem_map_of_mem SectionDef.name hs)
      obtain ⟨hp1, hp2⟩ :=
        foldSections_preserve form sec.name rest (processSection form c sec) hrest
      constructor
      · intro k
        rw [hp1, s1 k]
      · intro hhas
        rw [hp1]
        exact s3 (by rw [← hp2]; exact hhas)
    · exact ihsec sec hmem

/-! ### Schema lookup lemmas -/

theorem get_section_of_mem {sc : Schema} {sec : SectionDef}
    (h : sec ∈ sc.sections) (hn : (sc.sections.map SectionDef.name).Nodup) :
    get_section sc sec.name = some sec := by
  unfold get_section get_sections
  exact find?_unique SectionDef.name h hn

theorem get_key_definition_of_mem {sc : Schema} {sec : SectionDef} {kd : KeyDef}
    (hsec : sec ∈ sc.sections) (hn : (sc.sections.map SectionDef.name).Nodup)
    (hkd : kd ∈ sec.keys) (hkn : (sec.keys.map KeyDef.name).Nodup) :
    get_key_definition sc sec.name kd.name = some kd := by
  unfold get_key_definition get_keys_for_section
  rw [get_section_of_mem hsec hn]
  exact find?_unique KeyDef.name hkd hkn

/-! ### Numeric order lemmas for the clamping claims -/

theorem pyfloat_le_ne_nan {x y : PyFloat} (h : PyFloat.le x y = true) :
    x ≠ PyFloat.nan ∧ y ≠ PyFloat.nan := by
  cases x <;> cases y <;> simp [PyFloat.le] at h ⊢

theorem pyfloat_le_refl {x : PyFloat} (h : x ≠ PyFloat.nan) : PyFloat.le x x = true := by
  cases x <;> simp [PyFloat.le] at h ⊢

theorem pyfloat_le_trans {x y z : PyFloat} (h1 : PyFloat.le x y = true)
    (h2 : PyFloat.le y z = true) : PyFloat.le x z = true := by
  cases x <;> cases y <;> cases z <;> simp [PyFloat.le] at h1 h2 ⊢ <;> exact le_trans h1 h2

theorem pyfloat_le_of_not_lt {x y : PyFloat} (hx : x ≠ PyFloat.nan) (hy : y ≠ PyFloat.nan)
    (h : PyFloat.lt x y = false) : PyFloat.le y x = true := by
  cases x <;> cases y <;>
    simp [PyFloat.lt, PyFloat.le] at hx hy h ⊢
  exact h

theorem numLe_dest {a b : PyVal} (h : numLe a b = true) :
    ∃ x y, a.toFloat? = some x ∧ b.toFloat? = some y ∧ x ≠ PyFloat.nan ∧ y ≠ PyFloat.nan
      ∧ PyFloat.le x y = true := by
  unfold numLe at h
  cases ha : a.toFloat? with
  | none => rw [ha] at h; cases h
  | some x =>
    cases hb : b.toFloat? with
    | none => rw [ha, hb] at h; cases h
    | some y =>
      rw [ha, hb] at h
      exact ⟨x, y, rfl, rfl, (pyfloat_le_ne_nan h).1, (pyfloat_le_ne_nan h).2, h⟩

theorem numLe_mk {a b : PyVal} {x y : PyFloat} (ha : a.toFloat? = some x)
    (hb : b.toFloat? = some y) (h : PyFloat.le x y = true) : numLe a b = true := by
  unfold numLe
  rw [ha, hb]
  exact h

theorem numLt_false_dest {a b : PyVal} {x y : PyFloat} (ha : a.toFloat? = some x)
    (hb : b.toFloat? = some y) (h : numLt a b = false) : PyFloat.lt x y = false := by
  unfold numLt at h
  rw [ha, hb] at h
  exact h

theorem numLt_true_dest {a b : PyVal} (h : numLt a b = true) :
    ∃ x y, a.toFloat? = some x ∧ b.toFloat? = some y := by
  unfold numLt at h
  cases ha : a.toFloat? with
  | none => rw [ha] at h; cases h
  | some x =>
    cases hb : b.toFloat? with
    | none => rw [ha, hb] at h; cases h
    | some y => exact ⟨x, y, rfl, rfl⟩

theorem toFloat_some_ne_str {m : PyVal} {x : PyFloat} (h : PyVal.toFloat? m = some x) :
    ∀ s, m ≠ PyVal.str s := by
  cases m <;> simp [PyVal.toFloat?] at h ⊢

/-! ### The effective coercion never produces the sentinel unless fed it -/

theorem convert_value_no_sentinel (v : String) (kd : KeyDef)
    (hv : v ≠ "__UNDEFINED__") (hd : kd.default ≠ some (PyVal.str "__UNDEFINED__")) :
    convert_value v kd ≠ PyVal.str "__UNDEFINED__" := by
  have hdefault : ∀ (w : PyVal), w ≠ PyVal.str "__UNDEFINED__" →
      kd.default.getD w ≠ PyVal.str "__UNDEFINED__" := by
    intro w hw
    cases hdd : kd.default with
    | none => exact hw
    | some d =>
      rw [Option.getD_some]
      intro hEq
      apply hd
      rw [hdd, hEq]
  unfold convert_value
  by_cases h1 : kd.ktype = "boolean"
  · simp [h1]
  · rw [if_neg h1]
    by_cases h2 : kd.ktype = "integer"
    · rw [if_pos h2]
      split
      · exact hdefault (PyVal.int 0) (by simp)
      · split
        · split
          · next hlt =>
            obtain ⟨x, y, _, hy⟩ := numLt_true_dest hlt
            exact toFloat_some_ne_str hy _
          · split
            · split
              · next hlt2 =>
                obtain ⟨x, y, hx, _⟩ := numLt_true_dest hlt2
                exact toFloat_some_ne_str hx _
              · simp
            · simp
        · split
          · split
            · next hlt2 =>
              obtain ⟨x, y, hx, _⟩ := numLt_true_dest hlt2
              exact toFloat_some_ne_str hx _
            · simp
          · simp
    · rw [if_neg h2]
      by_cases h3 : kd.ktype = "float"
      · rw [if_pos h3]
        split
        · exact hdefault (PyVal.float (PyFloat.finite 0)) (by simp)
        · split
          · split
            · next hlt =>
              obtain ⟨x, y, _, hy⟩ := numLt_true_dest hlt
              exact toFloat_some_ne_str hy _
            · split
              · split
                · next hlt2 =>
                  obtain ⟨x, y, hx, _⟩ := numLt_true_dest hlt2
                  exact toFloat_some_ne_str hx _
                · simp
              · simp
          · split
            · split
              · next hlt2 =>
                obtain ⟨x, y, hx, _⟩ := numLt_true_dest hlt2
                exact toFloat_some_ne_str hx _
              · simp
            · simp
      · rw [if_neg h3]
        by_cases h4 : kd.ktype = "enum"
        · rw [if_pos h4]
          split
          · intro hEq
            exact hv (PyVal.str.inj hEq)
          · exact hdefault (PyVal.str "") (by simp)
        · rw [if_neg h4]
          intro hEq
          exact hv (PyVal.str.inj hEq)

/-- The runtime `get_config_value` agrees with the spec-worded lookup. -/
theorem get_config_value_eq_spec (sc : Schema) (config : Store) (s k : String) :
    get_config_value sc config s k = getAsSpecified sc config s k := by
  cases hkd : get_key_definition sc s k with
  | none => simp [get_config_value, getAsSpecified, hkd]
  | some kd =>
    cases hv : optsGet (storeOpts config s) k with
    | none =>
      have hnohas : optsHas (storeOpts config s) k = false := (optsHas_false_iff _ _).mpr hv
      simp [get_config_value, getAsSpecified, hkd, hv, storeHasOpt, hnohas]
    | some v =>
      have hhasopt : storeHasOpt config s k = true := by
        rw [storeHasOpt, ← optsGet_isSome_iff_has, hv]
        rfl
      have hhassec : storeHasSection config s = true := hasSection_of_optsGet_some hv
      have hgetval : storeGet config s k = v := by
        rw [storeGet, hv]
        rfl
      simp [get_config_value, getAsSpecified, hkd, hv, hhasopt, hhassec, hgetval]

/-! ### Concrete fixtures for the claims -/

/-- The enum key `SETTINGS.theme` of the default schema. -/
def fixture_theme_key : KeyDef :=
  ⟨"theme", "enum", some (.str "light"), Option.none, Option.none, ["light", "dark"], ""⟩

/-- The bounded integer key `ADVANCED.refresh_interval` of the default schema. -/
def fixture_interval_key : KeyDef :=
  ⟨"refresh_interval", "integer", some (.int 60), some (.int 30), some (.int 3600), [], ""⟩

/-- A boolean key like `SETTINGS.auto_update`. -/
def fixture_bool_key : KeyDef :=
  ⟨"auto_update", "boolean", some (.bool false), Option.none, Option.none, [], ""⟩

/-- A string key like `SETTINGS.firmware_version`. -/
def fixture_string_key : KeyDef :=
  ⟨"firmware_version", "string", some (.str "1.0.0"), Option.none, Option.none, [], ""⟩

/-- A bounded float key (the default schema has none; range `[0, 2]`). -/
def fixture_float_key : KeyDef :=
  ⟨"scale", "float", some (.float (.finite 1)), some (.int 0), some (.int 2), [], ""⟩

/-- Schema section holding only `theme`. -/
def fixture_settings : SectionDef := ⟨"SETTINGS", "", [fixture_theme_key]⟩

/-- Schema section holding only `refresh_interval`. -/
def fixture_advanced : SectionDef := ⟨"ADVANCED", "", [fixture_interval_key]⟩

/-- A two-section schema mirroring the default schema's shape. -/
def fixture_schema : Schema := ⟨"app.ini", [fixture_settings, fixture_advanced]⟩

/-- One-section, one-string-key schema. -/
def fixture_s_schema : Schema :=
  ⟨"app.ini", [⟨"S", "", [⟨"k", "string", some (.str "light"), Option.none, Option.none, [], ""⟩]⟩]⟩

/-! ### The claims -/

/-- Claim C1: the spec states that schema keys whose `SECTION.KEY` name is
absent from the form are left untouched by `update_config_from_form`.  The
pruning loop (lines 413-415) contradicts this and the comment above it
(`スキーマに定義されていないキーを削除`, delete keys not defined in the
schema): it deletes every key its form pass did not handle, including
schema-defined ones.  With `SETTINGS.theme = dark` stored and an empty form,
the update succeeds and the persisted store has lost the key entirely. -/
theorem c1_unmentioned_schema_key_is_cleared :
    storeHasOpt [("SETTINGS", [("theme", "dark")])] "SETTINGS" "theme" = true
    ∧ update_config_from_form fixture_schema
        (FileState.good [("SETTINGS", [("theme", "dark")])]) [] = (true, FileState.good [])
    ∧ storeHasOpt [] "SETTINGS" "theme" = false := by decide

/-- Claim C2 counterexample: the claim states that on a parse error the
persisted file is left unchanged; `read_config` on an unparsable file calls
`_create_default_config`, which saves, so the corrupt file is replaced by a
serialized empty store. -/
theorem c2_counterexample_parse_error_overwrites :
    (read_config (FileState.corrupt "garbage")).2 = FileState.good []
    ∧ (read_config (FileState.corrupt "garbage")).2 ≠ FileState.corrupt "garbage" := by decide

/-- Claim C2 (amended): `read_config` returns the parsed store for a healthy
file; for a missing file it synthesizes an empty store and persists it; for
an unparsable file it falls back to an empty store and likewise persists it,
overwriting the corrupt file. -/
theorem c2_read_config_behavior :
    (∀ st : Store, read_config (FileState.good st) = (st, FileState.good st))
    ∧ read_config FileState.missing = ([], FileState.good [])
    ∧ (∀ raw : String, read_config (FileState.corrupt raw) = ([], FileState.good [])) :=
  ⟨fun _ => rfl, rfl, fun _ => rfl⟩

/-- Claim C3 counterexample: the claim states the effective `convert_value`
maps the sentinel to no value; the overriding definition (lines 287-325) has
no sentinel check, and for a string-typed key it returns the sentinel string
itself rather than `None`. -/
theorem c3_counterexample_undefined_string_key :
    convert_value "__UNDEFINED__" fixture_string_key = PyVal.str "__UNDEFINED__"
    ∧ convert_value "__UNDEFINED__" fixture_string_key ≠ PyVal.none := by decide

/-- Claim C3 (amended): the effective `convert_value` treats the sentinel
like any other string: booleans coerce to `false`, integer and float keys
fall back to the branch default (the sentinel does not parse), enum keys
fall back to the default when the sentinel is not an option, and string keys
return the sentinel itself.  It never maps the sentinel to `None`. -/
theorem c3_effective_convert_undefined_behavior (kd : KeyDef) :
    (kd.ktype = "boolean" → convert_value "__UNDEFINED__" kd = PyVal.bool false)
    ∧ (kd.ktype = "integer" →
        convert_value "__UNDEFINED__" kd = kd.default.getD (PyVal.int 0))
    ∧ (kd.ktype = "float" →
        convert_value "__UNDEFINED__" kd = kd.default.getD (PyVal.float (PyFloat.finite 0)))
    ∧ (kd.ktype = "enum" → "__UNDEFINED__" ∉ kd.options →
        convert_value "__UNDEFINED__" kd = kd.default.getD (PyVal.str ""))
    ∧ (kd.ktype = "string" → convert_value "__UNDEFINED__" kd = PyVal.str "__UNDEFINED__") := by
  have hint : pyParseInt "__UNDEFINED__" = Option.none := by decide
  have hfloat : pyParseFloat "__UNDEFINED__" = Option.none := by decide
  refine ⟨?_, ?_, ?_, ?_, ?_⟩
  · intro h
    simp [convert_value, h]
    decide
  · intro h
    simp [convert_value, h, hint]
  · intro h
    simp [convert_value, h, hfloat]
  · intro h hnot
    simp [convert_value, h, hnot]
  · intro h
    simp [convert_value, h]

/-- Witness for the amended C3: each key type evaluated at the sentinel. -/
theorem c3_effective_convert_undefined_behavior_witness :
    convert_value "__UNDEFINED__" fixture_bool_key = PyVal.bool false
    ∧ convert_value "__UNDEFINED__" fixture_interval_key = PyVal.int 60
    ∧ convert_value "__UNDEFINED__" fixture_float_key = PyVal.float (PyFloat.finite 1)
    ∧ convert_value "__UNDEFINED__" fixture_theme_key = PyVal.str "light"
    ∧ convert_value "__UNDEFINED__" fixture_string_key = PyVal.str "__UNDEFINED__" :=
  ⟨(c3_effective_convert_undefined_behavior fixture_bool_key).1 rfl,
   (c3_effective_convert_undefined_behavior fixture_interval_key).2.1 rfl,
   (c3_effective_convert_undefined_behavior fixture_float_key).2.2.1 rfl,
   (c3_effective_convert_undefined_behavior fixture_theme_key).2.2.2.1 rfl (by decide),
   (c3_effective_convert_undefined_behavior fixture_string_key).2.2.2.2 rfl⟩

/-- Claim C9: `validate_value` on the empty string returns valid with no
error for every key definition, of any type: the empty string is rewritten
to the sentinel and the sentinel returns the initial all-clear result before
any type, range or membership check runs. -/
theorem c9_validate_empty_always_valid (kd : KeyDef) :
    validate_value "" kd = { valid := true, error := Option.none, value := "" } := by
  simp [validate_value]

/-- Claim C10: `save_config` deletes every sentinel-valued key before
serializing, so whatever store a caller passes, a successful write persists
no key whose raw value is the undefined sentinel. -/
theorem c10_save_config_strips_sentinel (fs : FileState) (c : Store) (st2 : Store)
    (h : (save_config fs c).1 = FileState.good st2) :
    (save_config fs c).2 = true
    ∧ ∀ p ∈ st2, ∀ q ∈ p.2, q.2 ≠ "__UNDEFINED__" := by
  refine ⟨rfl, ?_⟩
  have hst : st2 = strip_undefined c := by
    have h2 : FileState.good (strip_undefined c) = FileState.good st2 := h
    exact (FileState.good.inj h2).symm
  subst hst
  intro p hp q hq
  simp only [strip_undefined, List.mem_map] at hp
  obtain ⟨p0, hp0, hpe⟩ := hp
  rw [← hpe] at hq
  have hq2 := List.of_mem_filter hq
  simp at hq2
  exact hq2

/-- Witness for C10: a store holding a sentinel-valued key, written and
checked. -/
theorem c10_save_config_strips_sentinel_witness :
    (save_config FileState.missing [("S", [("a", "__UNDEFINED__"), ("b", "x")])]).1
      = FileState.good [("S", [("b", "x")])]
    ∧ (save_config FileState.missing [("S", [("a", "__UNDEFINED__"), ("b", "x")])]).2 = true
    ∧ ∀ p ∈ ([("S", [("b", "x")])] : Store), ∀ q ∈ p.2, q.2 ≠ "__UNDEFINED__" := by
  refine ⟨by decide, ?_, ?_⟩
  · exact (c10_save_config_strips_sentinel FileState.missing
      [("S", [("a", "__UNDEFINED__"), ("b", "x")])] [("S", [("b", "x")])] (by decide)).1
  · exact (c10_save_config_strips_sentinel FileState.missing
      [("S", [("a", "__UNDEFINED__"), ("b", "x")])] [("S", [("b", "x")])] (by decide)).2

/-- Claim C8 counterexample: the claim states the effective get never
returns the sentinel string.  When the store itself holds the sentinel as
the raw value of a string-typed key, `get_config_value` returns
`coerce(storedValue)`, which for a string key is the sentinel itself. -/
theorem c8_counterexample_sentinel_returned :
    get_config_value fixture_s_schema [("S", [("k", "__UNDEFINED__")])] "S" "k"
      = PyVal.str "__UNDEFINED__" := by decide

/-- Claim C8 (amended): the effective `get_config_value` returns
`coerce(storedValue)` when the key is present, the schema default when the
key or section is absent but schema-defined, and `None` when the key is not
in the schema (the spec-worded `getAsSpecified` captures exactly this); and
it returns the sentinel string only when the sentinel is itself the stored
raw value or the key's schema default. -/
theorem c8_get_characterization (sc : Schema) (config : Store) (s k : String) :
    get_config_value sc config s k = getAsSpecified sc config s k
    ∧ ((∀ kd, get_key_definition sc s k = some kd →
          kd.default ≠ some (PyVal.str "__UNDEFINED__")
          ∧ ∀ v, optsGet (storeOpts config s) k = some v → v ≠ "__UNDEFINED__") →
        get_config_value sc config s k ≠ PyVal.str "__UNDEFINED__") := by
  refine ⟨get_config_value_eq_spec sc config s k, ?_⟩
  intro hsafe
  rw [get_config_value_eq_spec sc config s k]
  cases hkd : get_key_definition sc s k with
  | none => simp [getAsSpecified, hkd]
  | some kd =>
    obtain ⟨hdef, hval⟩ := hsafe kd hkd
    cases hv : optsGet (storeOpts config s) k with
    | none =>
      have hspec : getAsSpecified sc config s k = kd.default.getD PyVal.none := by
        simp [getAsSpecified, hkd, hv]
      rw [hspec]
      cases hdd : kd.default with
      | none => simp
      | some d =>
        rw [Option.getD_some]
        intro hEq
        exact hdef (by rw [hdd, hEq])
    | some v =>
      have hspec : getAsSpecified sc config s k = convert_value v kd := by
        simp [getAsSpecified, hkd, hv]
      rw [hspec]
      exact convert_value_no_sentinel v kd (hval v hv) hdef

/-- Witness for the amended C8: a healthy store and key, where get matches
the spec-worded lookup and is not the sentinel. -/
theorem c8_get_characterization_witness :
    (get_config_value fixture_s_schema [("S", [("k", "x")])] "S" "k"
      = getAsSpecified fixture_s_schema [("S", [("k", "x")])] "S" "k")
    ∧ get_config_value fixture_s_schema [("S", [("k", "x")])] "S" "k"
        ≠ PyVal.str "__UNDEFINED__" := by
  have h := c8_get_characterization fixture_s_schema [("S", [("k", "x")])] "S" "k"
  refine ⟨h.1, h.2 ?_⟩
  intro kd hkd
  have h0 : get_key_definition fixture_s_schema "S" "k"
      = some ⟨"k", "string", some (.str "light"), Option.none, Option.none, [], ""⟩ := by decide
  rw [h0] at hkd
  have hkd2 : kd = ⟨"k", "string", some (.str "light"), Option.none, Option.none, [], ""⟩ :=
    (Option.some.inj hkd).symm
  subst hkd2
  constructor
  · decide
  · intro v hv
    have h1 : optsGet (storeOpts ([("S", [("k", "x")])] : Store) "S") "k" = some "x" := by decide
    rw [h1] at hv
    have hvx : v = "x" := (Option.some.inj hv).symm
    subst hvx
    decide

theorem bool_eq_false {b : Bool} (h : ¬ b = true) : b = false := by
  cases b
  · rfl
  · exact absurd rfl h

/-- Claim C5 counterexample: the claim states coerce output always lies in
`[min, max]` for numeric keys with both bounds set and an in-range default.
Python `float("nan")` parses, and NaN compares false against both bounds, so
the float branch returns NaN unclamped — and NaN does not lie in the
range. -/
theorem c5_counterexample_nan_escapes_clamp :
    fixture_float_key.min = some (PyVal.int 0)
    ∧ fixture_float_key.max = some (PyVal.int 2)
    ∧ numLe (PyVal.int 0) (fixture_float_key.default.getD (PyVal.float (PyFloat.finite 0))) = true
    ∧ numLe (fixture_float_key.default.getD (PyVal.float (PyFloat.finite 0))) (PyVal.int 2) = true
    ∧ convert_value "nan" fixture_float_key = PyVal.float PyFloat.nan
    ∧ numLe (PyVal.int 0) (convert_value "nan" fixture_float_key) = false := by decide

/-- Claim C5 (amended): with both bounds set and the branch default within
them, `convert_value` stays within `[min, max]` for every input string on
integer keys (clamp or default), and on float keys for every input except
one whose float parse is NaN — NaN slips through both comparisons and is
returned outside the range. -/
theorem c5_clamp_within_bounds (kd : KeyDef) (m mx : PyVal) (v : String)
    (hmin : kd.min = some m) (hmax : kd.max = some mx) :
    (kd.ktype = "integer" →
      numLe m (kd.default.getD (PyVal.int 0)) = true →
      numLe (kd.default.getD (PyVal.int 0)) mx = true →
      numLe m (convert_value v kd) = true ∧ numLe (convert_value v kd) mx = true)
    ∧ (kd.ktype = "float" →
      numLe m (kd.default.getD (PyVal.float (PyFloat.finite 0))) = true →
      numLe (kd.default.getD (PyVal.float (PyFloat.finite 0))) mx = true →
      pyParseFloat v ≠ some PyFloat.nan →
      numLe m (convert_value v kd) = true ∧ numLe (convert_value v kd) mx = true) := by
  constructor
  · intro ht hd1 hd2
    obtain ⟨mF, dF, hmF, hdF, hmN, hdN, hle1⟩ := numLe_dest hd1
    obtain ⟨dF2, mxF, hdF2, hmxF, hdN2, hmxN, hle2⟩ := numLe_dest hd2
    rw [hdF] at hdF2
    replace hdF2 := Option.some.inj hdF2
    subst hdF2
    have hlemmx : PyFloat.le mF mxF = true := pyfloat_le_trans hle1 hle2
    have hcases : (∃ n : ℤ, convert_value v kd = PyVal.int n
          ∧ numLt (PyVal.int n) m = false ∧ numLt mx (PyVal.int n) = false)
        ∨ convert_value v kd = m ∨ convert_value v kd = mx
        ∨ convert_value v kd = kd.default.getD (PyVal.int 0) := by
      unfold convert_value
      rw [if_neg (by rw [ht]; decide), if_pos ht]
      split
      · right; right; right; rfl
      · next n heqn =>
        split
        · next m' heqm =>
          rw [hmin] at heqm
          replace heqm := Option.some.inj heqm
          subst heqm
          split
          · next hlt => right; left; rfl
          · next hnlt =>
            split
            · next mx' heqmx =>
              rw [hmax] at heqmx
              replace heqmx := Option.some.inj heqmx
              subst heqmx
              split
              · next hlt2 => right; right; left; rfl
              · next hnlt2 =>
                exact Or.inl ⟨n, rfl, bool_eq_false hnlt, bool_eq_false hnlt2⟩
            · next heqmx =>
              rw [hmax] at heqmx
              cases heqmx
        · next heqm =>
          rw [hmin] at heqm
          cases heqm
    rcases hcases with ⟨n, hcv, hnm, hnmx⟩ | hcv | hcv | hcv
    · rw [hcv]
      have hfn : (PyVal.int n).toFloat? = some (PyFloat.finite (n : ℚ)) := rfl
      have h1 : PyFloat.le mF (PyFloat.finite (n : ℚ)) = true :=
        pyfloat_le_of_not_lt (by simp) hmN (numLt_false_dest hfn hmF hnm)
      have h2 : PyFloat.le (PyFloat.finite (n : ℚ)) mxF = true :=
        pyfloat_le_of_not_lt hmxN (by simp) (numLt_false_dest hmxF hfn hnmx)
      exact ⟨numLe_mk hmF hfn h1, numLe_mk hfn hmxF h2⟩
    · rw [hcv]
      exact ⟨numLe_mk hmF hmF (pyfloat_le_refl hmN), numLe_mk hmF hmxF hlemmx⟩
    · rw [hcv]
      exact ⟨numLe_mk hmF hmxF hlemmx, numLe_mk hmxF hmxF (pyfloat_le_refl hmxN)⟩
    · rw [hcv]
      exact ⟨hd1, hd2⟩
  · intro ht hd1 hd2 hnan
    obtain ⟨mF, dF, hmF, hdF, hmN, hdN, hle1⟩ := numLe_dest hd1
    obtain ⟨dF2, mxF, hdF2, hmxF, hdN2, hmxN, hle2⟩ := numLe_dest hd2
    rw [hdF] at hdF2
    replace hdF2 := Option.some.inj hdF2
    subst hdF2
    have hlemmx : PyFloat.le mF mxF = true := pyfloat_le_trans hle1 hle2
    have hcases : (∃ f : PyFloat, pyParseFloat v = some f ∧ convert_value v kd = PyVal.float f
          ∧ numLt (PyVal.float f) m = false ∧ numLt mx (PyVal.float f) = false)
        ∨ convert_value v kd = m ∨ convert_value v kd = mx
        ∨ convert_value v kd = kd.default.getD (PyVal.float (PyFloat.finite 0)) := by
      unfold convert_value
      rw [if_neg (by rw [ht]; decide), if_neg (by rw [ht]; decide), if_pos ht]
      split
      · right; right; right; rfl
      · next f heqf =>
        split
        · next m' heqm =>
          rw [hmin] at heqm
          replace heqm := Option.some.inj heqm
          subst heqm
          split
          · next hlt => right; left; rfl
          · next hnlt =>
            split
            · next mx' heqmx =>
              rw [hmax] at heqmx
              replace heqmx := Option.some.inj heqmx
              subst heqmx
              split
              · next hlt2 => right; right; left; rfl
              · next hnlt2 =>
                exact Or.inl ⟨f, heqf, rfl, bool_eq_false hnlt, bool_eq_false hnlt2⟩
            · next heqmx =>
              rw [hmax] at heqmx
              cases heqmx
        · next heqm =>
          rw [hmin] at heqm
          cases heqm
    rcases hcases with ⟨f, hpf, hcv, hnm, hnmx⟩ | hcv | hcv | hcv
    · rw [hcv]
      have hfnan : f ≠ PyFloat.nan := by
        intro hEq
        exact hnan (hEq ▸ hpf)
      have hff : (PyVal.float f).toFloat? = some f := rfl
      have h1 : PyFloat.le mF f = true :=
        pyfloat_le_of_not_lt hfnan hmN (numLt_false_dest hff hmF hnm)
      have h2 : PyFloat.le f mxF = true :=
        pyfloat_le_of_not_lt hmxN hfnan (numLt_false_dest hmxF hff hnmx)
      exact ⟨numLe_mk hmF hff h1, numLe_mk hff hmxF h2⟩
    · rw [hcv]
      exact ⟨numLe_mk hmF hmF (pyfloat_le_refl hmN), numLe_mk hmF hmxF hlemmx⟩
    · rw [hcv]
      exact ⟨numLe_mk hmF hmxF hlemmx, numLe_mk hmxF hmxF (pyfloat_le_refl hmxN)⟩
    · rw [hcv]
      exact ⟨hd1, hd2⟩

/-- Witness for the amended C5: the integer key clamped below its minimum
and the float key on an ordinary in-range input. -/
theorem c5_clamp_within_bounds_witness :
    (numLe (PyVal.int 30) (convert_value "5" fixture_interval_key) = true
      ∧ numLe (convert_value "5" fixture_interval_key) (PyVal.int 3600) = true)
    ∧ (numLe (PyVal.int 0) (convert_value "1.5" fixture_float_key) = true
      ∧ numLe (convert_value "1.5" fixture_float_key) (PyVal.int 2) = true) :=
  ⟨(c5_clamp_within_bounds fixture_interval_key (PyVal.int 30) (PyVal.int 3600) "5"
      rfl rfl).1 rfl (by decide) (by decide),
   (c5_clamp_within_bounds fixture_float_key (PyVal.int 0) (PyVal.int 2) "1.5"
      rfl rfl).2 rfl (by decide) (by decide) (by decide)⟩

/-- A value surviving the reconciliation pass is a real submitted value:
neither the sentinel nor empty. -/
theorem expectedOpt_some_val {form : Opts} {sec : SectionDef} {k w : String}
    (h : expectedOpt form sec k = some w) : w ≠ "__UNDEFINED__" ∧ w ≠ "" := by
  unfold expectedOpt touchedResult at h
  split at h
  · split at h
    · split at h
      · exact absurd h (by simp)
      · next hcond =>
        replace h := Option.some.inj h
        subst h
        push_neg at hcond
        exact ⟨hcond.1, fun hEq => hcond.2 (by rw [hEq]; rfl)⟩
    · exact absurd h (by simp)
  · exact absurd h (by simp)

/-- Claim C4: for a schema key `S.k` and a non-empty, non-sentinel raw value,
a successful `update_config_from_form {"S.k": v}` followed by `read_config`
yields `get_config_value S k = convert_value v keyDef`.  Uniqueness of
section and key names (a schema invariant) and `configparser`
well-formedness of the starting store are assumed. -/
theorem c4_round_trip (sc : Schema) (st : Store) (sec : SectionDef) (kd : KeyDef) (v : String)
    (hnames : (sc.sections.map SectionDef.name).Nodup)
    (hkeys : ∀ s ∈ sc.sections, (s.keys.map KeyDef.name).Nodup)
    (hsec : sec ∈ sc.sections) (hkd : kd ∈ sec.keys)
    (hwf : StoreWF st) (hv1 : v ≠ "") (hv2 : v ≠ "__UNDEFINED__") :
    (update_config_from_form sc (FileState.good st) [(sec.name ++ "." ++ kd.name, v)]).1 = true
    ∧ get_config_value sc
        (read_config
          (update_config_from_form sc (FileState.good st) [(sec.name ++ "." ++ kd.name, v)]).2).1
        sec.name kd.name
      = convert_value v kd := by
  have hrun : update_config_from_form sc (FileState.good st) [(sec.name ++ "." ++ kd.name, v)]
      = (true, FileState.good (strip_undefined
          (sc.sections.foldl (processSection [(sec.name ++ "." ++ kd.name, v)]) st))) := rfl
  refine ⟨by rw [hrun], ?_⟩
  rw [hrun]
  obtain ⟨hwf', hsecs⟩ :=
    foldSections_spec [(sec.name ++ "." ++ kd.name, v)] sc.sections st hnames hkeys hwf
  obtain ⟨hlook, _⟩ := hsecs sec hsec
  have hform : formLookup [(sec.name ++ "." ++ kd.name, v)] sec.name kd.name = some v := by
    simp [formLookup]
  have hfindkd : sec.keys.find? (fun kd' => kd'.name == kd.name) = some kd :=
    find?_unique KeyDef.name hkd (hkeys sec hsec)
  have hcond : ¬ (v = "__UNDEFINED__" ∨ v.length = 0) := by
    rintro (h | h)
    · exact hv2 h
    · exact hv1 (string_length_zero_iff.mp h)
  have hexp : expectedOpt [(sec.name ++ "." ++ kd.name, v)] sec kd.name = some v := by
    simp [expectedOpt, hfindkd, touchedResult, hform, hcond]
  have hval : optsGet
      (storeOpts (sc.sections.foldl (processSection [(sec.name ++ "." ++ kd.name, v)]) st)
        sec.name) kd.name = some v := by
    rw [hlook kd.name, hexp]
  have hstrip : optsGet
      (storeOpts (strip_undefined
        (sc.sections.foldl (processSection [(sec.name ++ "." ++ kd.name, v)]) st)) sec.name)
      kd.name = some v := by
    rw [storeOpts_strip,
      optsGet_filter_sentinel kd.name (opts_nodup_of_wf hwf' sec.name), hval]
    simp [hv2]
  have hkdlook : get_key_definition sc sec.name kd.name = some kd :=
    get_key_definition_of_mem hsec hnames hkd (hkeys sec hsec)
  have hhs := hasSection_of_optsGet_some hstrip
  have hho : storeHasOpt (strip_undefined
      (sc.sections.foldl (processSection [(sec.name ++ "." ++ kd.name, v)]) st))
      sec.name kd.name = true := by
    rw [storeHasOpt, ← optsGet_isSome_iff_has, hstrip]
    rfl
  have hsg : storeGet (strip_undefined
      (sc.sections.foldl (processSection [(sec.name ++ "." ++ kd.name, v)]) st))
      sec.name kd.name = v := by
    rw [storeGet, hstrip]
    rfl
  simp [read_config, get_config_value, hkdlook, hhs, hho, hsg]

/-- Witness for C4: submitting `SETTINGS.theme = dark` on an empty store and
reading it back through the persisted file. -/
theorem c4_round_trip_witness :
    ((fixture_schema.sections.map SectionDef.name).Nodup
      ∧ (∀ s ∈ fixture_schema.sections, (s.keys.map KeyDef.name).Nodup)
      ∧ fixture_settings ∈ fixture_schema.sections
      ∧ fixture_theme_key ∈ fixture_settings.keys
      ∧ StoreWF ([] : Store) ∧ "dark" ≠ "" ∧ "dark" ≠ "__UNDEFINED__")
    ∧ get_config_value fixture_schema
        (read_config
          (update_config_from_form fixture_schema (FileState.good [])
            [("SETTINGS" ++ "." ++ "theme", "dark")]).2).1
        "SETTINGS" "theme"
      = convert_value "dark" fixture_theme_key := by
  refine ⟨⟨by decide, by decide, by decide, by decide, ⟨by decide, by decide⟩, by decide,
    by decide⟩, ?_⟩
  exact (c4_round_trip fixture_schema [] fixture_settings fixture_theme_key "dark"
    (by decide) (by decide) (by decide) (by decide) ⟨by decide, by decide⟩ (by decide)
    (by decide)).2

/-- Claim C6: a key stored in a schema-defined section but not defined by
the schema for that section is removed by any successful
`update_config_from_form`, whatever the submitted form contains. -/
theorem c6_stale_key_pruned (sc : Schema) (st : Store) (sec : SectionDef) (kk : String)
    (form : Opts)
    (hnames : (sc.sections.map SectionDef.name).Nodup)
    (hkeys : ∀ s ∈ sc.sections, (s.keys.map KeyDef.name).Nodup)
    (hsec : sec ∈ sc.sections)
    (hnotdef : kk ∉ sec.keys.map KeyDef.name)
    (hwf : StoreWF st) (hstored : storeHasOpt st sec.name kk = true) :
    (update_config_from_form sc (FileState.good st) form).1 = true
    ∧ storeHasOpt (read_config (update_config_from_form sc (FileState.good st) form).2).1
        sec.name kk = false := by
  have hrun : update_config_from_form sc (FileState.good st) form
      = (true, FileState.good (strip_undefined (sc.sections.foldl (processSection form) st))) :=
    rfl
  refine ⟨by rw [hrun], ?_⟩
  rw [hrun]
  obtain ⟨hwf', hsecs⟩ := foldSections_spec form sc.sections st hnames hkeys hwf
  obtain ⟨hlook, _⟩ := hsecs sec hsec
  have hfind : sec.keys.find? (fun kd => kd.name == kk) = Option.none := by
    rw [List.find?_eq_none]
    intro kd hkd
    simp only [beq_iff_eq]
    intro hEq
    exact hnotdef (hEq ▸ List.mem_map_of_mem KeyDef.name hkd)
  have hexp : expectedOpt form sec kk = Option.none := by
    simp [expectedOpt, hfind]
  have hval : optsGet (storeOpts (sc.sections.foldl (processSection form) st) sec.name) kk
      = Option.none := by
    rw [hlook kk, hexp]
  have hstrip : optsGet
      (storeOpts (strip_undefined (sc.sections.foldl (processSection form) st)) sec.name) kk
      = Option.none := by
    rw [storeOpts_strip, optsGet_filter_sentinel kk (opts_nodup_of_wf hwf' sec.name), hval]
  rw [show (read_config (FileState.good
      (strip_undefined (sc.sections.foldl (processSection form) st)))).1
    = strip_undefined (sc.sections.foldl (processSection form) st) from rfl]
  rw [storeHasOpt, ← optsGet_isSome_iff_has, hstrip]
  rfl

/-- Witness for C6: a stale `SETTINGS.stale` key disappears even though the
form does not mention it. -/
theorem c6_stale_key_pruned_witness :
    ((fixture_schema.sections.map SectionDef.name).Nodup
      ∧ (∀ s ∈ fixture_schema.sections, (s.keys.map KeyDef.name).Nodup)
      ∧ fixture_settings ∈ fixture_schema.sections
      ∧ "stale" ∉ fixture_settings.keys.map KeyDef.name
      ∧ StoreWF [("SETTINGS", [("stale", "1"), ("theme", "dark")])]
      ∧ storeHasOpt [("SETTINGS", [("stale", "1"), ("theme", "dark")])] "SETTINGS" "stale" = true)
    ∧ storeHasOpt
        (read_config
          (update_config_from_form fixture_schema
            (FileState.good [("SETTINGS", [("stale", "1"), ("theme", "dark")])]) []).2).1
        "SETTINGS" "stale" = false := by
  refine ⟨⟨by decide, by decide, by decide, by decide, ⟨by decide, by decide⟩, by decide⟩, ?_⟩
  exact (c6_stale_key_pruned fixture_schema [("SETTINGS", [("stale", "1"), ("theme", "dark")])]
    fixture_settings "stale" [] (by decide) (by decide) (by decide) (by decide)
    ⟨by decide, by decide⟩ (by decide)).2

/-- Claim C7: after any `update_config_from_form`, no schema-defined section
is persisted empty — in particular a section whose only stored key was
submitted as the sentinel is gone from the store. -/
theorem c7_no_empty_schema_section_persisted (sc : Schema) (st : Store) (sec : SectionDef)
    (form : Opts)
    (hnames : (sc.sections.map SectionDef.name).Nodup)
    (hkeys : ∀ s ∈ sc.sections, (s.keys.map KeyDef.name).Nodup)
    (hsec : sec ∈ sc.sections) (hwf : StoreWF st) :
    (update_config_from_form sc (FileState.good st) form).1 = true
    ∧ (storeHasSection
        (read_config (update_config_from_form sc (FileState.good st) form).2).1 sec.name = true →
      storeOpts (read_config (update_config_from_form sc (FileState.good st) form).2).1 sec.name
        ≠ []) := by
  have hrun : update_config_from_form sc (FileState.good st) form
      = (true, FileState.good (strip_undefined (sc.sections.foldl (processSection form) st))) :=
    rfl
  refine ⟨by rw [hrun], ?_⟩
  rw [hrun]
  obtain ⟨hwf', hsecs⟩ := foldSections_spec form sc.sections st hnames hkeys hwf
  obtain ⟨hlook, hnonempty⟩ := hsecs sec hsec
  rw [show (read_config (FileState.good
      (strip_undefined (sc.sections.foldl (processSection form) st)))).1
    = strip_undefined (sc.sections.foldl (processSection form) st) from rfl]
  intro hhas
  have hhas' : storeHasSection (sc.sections.foldl (processSection form) st) sec.name = true := by
    rw [← storeHasSection_congr (map_fst_strip (sc.sections.foldl (processSection form) st))
      sec.name]
    exact hhas
  have hvals : ∀ p ∈ storeOpts (sc.sections.foldl (processSection form) st) sec.name,
      (fun q => !(q.2 == "__UNDEFINED__")) p = true := by
    intro p hp
    have hlookup := optsGet_of_mem_nodup (opts_nodup_of_wf hwf' sec.name) hp
    rw [hlook p.1] at hlookup
    have hne := (expectedOpt_some_val hlookup).1
    simp [hne]
  have hfilter :
      (storeOpts (sc.sections.foldl (processSection form) st) sec.name).filter
        (fun q => !(q.2 == "__UNDEFINED__"))
      = storeOpts (sc.sections.foldl (processSection form) st) sec.name :=
    List.filter_eq_self.mpr hvals
  rw [storeOpts_strip, hfilter]
  exact hnonempty hhas'

/-- Witness for C7: submitting the sentinel for the only stored key of
`SETTINGS` leaves no empty persisted section. -/
theorem c7_no_empty_schema_section_persisted_witness :
    ((fixture_schema.sections.map SectionDef.name).Nodup
      ∧ (∀ s ∈ fixture_schema.sections, (s.keys.map KeyDef.name).Nodup)
      ∧ fixture_settings ∈ fixture_schema.sections
      ∧ StoreWF [("SETTINGS", [("theme", "dark")])])
    ∧ (storeHasSection
        (read_config
          (update_config_from_form fixture_schema
            (FileState.good [("SETTINGS", [("theme", "dark")])])
            [("SETTINGS" ++ "." ++ "theme", "__UNDEFINED__")]).2).1 "SETTINGS" = true →
      storeOpts
        (read_config
          (update_config_from_form fixture_schema
            (FileState.good [("SETTINGS", [("theme", "dark")])])
            [("SETTINGS" ++ "." ++ "theme", "__UNDEFINED__")]).2).1 "SETTINGS" ≠ []) := by
  refine ⟨⟨by decide, by decide, by decide, ⟨by decide, by decide⟩⟩, ?_⟩
  exact (c7_no_empty_schema_section_persisted fixture_schema
    [("SETTINGS", [("theme", "dark")])] fixture_settings
    [("SETTINGS" ++ "." ++ "theme", "__UNDEFINED__")]
    (by decide) (by decide) (by decide) ⟨by decide, by decide⟩).2

end Dummyls
